import Mathlib

/-!
Verification of the mecha schema front end: a shallow embedding of the
lexer (src/lexer.rs), the parser (src/parser.rs) and the semantic
analyzer (crates/mecha-compiler/src/semantic.rs, textually duplicated in
src/ast.rs) together with proofs about the properties stated in the
design document.

Rust HashMap iteration order is arbitrary, so every function that
iterates over the table map takes the iteration order as an explicit
parameter `ord` (a permutation of the schema tables).  Loops whose
termination is data dependent (the cycle-detection walk and the
column-flattening walk) are written with explicit fuel; exhausted fuel
or a failed `unwrap`/`expect` is modelled as `none`.
-/

namespace Mecha

/-- Byte span `[start, stop)` mirroring chumsky SimpleSpan. -/
abbrev Span := Nat × Nat

/-- A diagnostic label: `Rich::custom(span, message)`. -/
abbrev Diag := Span × String

abbrev Diags := List Diag

/-- ASCII single quote, written with an escape to keep source plain. -/
def sq : String := "\x27"

structure Ident where
  name : String
  span : Span
deriving DecidableEq, Repr

inductive RefOperator where
  | oneToMany
  | oneToOne
  | manyToMany
deriving DecidableEq, Repr

structure ReferenceDef where
  operator : RefOperator
  table : Ident
  column : Ident
  span : Span
deriving DecidableEq, Repr

inductive ColumnAttribute where
  | primary
  | unique
deriving DecidableEq, Repr

inductive Index where
  | single (id : Ident) (span : Span)
  | composite (ids : List Ident) (span : Span)
deriving DecidableEq, Repr

structure ColumnDef where
  id : Ident
  typ : Ident
  attr : Option ColumnAttribute
  reference : Option ReferenceDef
  span : Span
deriving DecidableEq, Repr

structure TableDef where
  id : Ident
  isAbstract : Bool
  extendedBy : Option Ident
  columns : List ColumnDef
  indexes : Option (List Index)
  span : Span
deriving DecidableEq, Repr

structure Schema where
  name : String
  tables : List TableDef
  span : Span
deriving DecidableEq, Repr

/-- Lookup in the table map built by `collect_tables`; since table names
are unique past that pass, a name lookup in the map agrees with a first
match over the table list. -/
def findTable (tm : List TableDef) (n : String) : Option TableDef :=
  tm.find? (fun t => t.id.name == n)

/-- The two-label table-redeclaration diagnostic. -/
def tableRedeclDiag (prev t : TableDef) : Diags :=
  [(prev.id.span, "table " ++ prev.id.name ++ " is declared here"),
   (t.id.span, "but redeclared here")]

/-- The missing-parent diagnostic. -/
def parentMissingDiag (pid : Ident) : Diags :=
  [(pid.span, "table " ++ pid.name ++ " is not existed")]

/-- The two-label non-abstract-parent diagnostic. -/
def nonAbstractDiag (t pt : TableDef) (pname : String) : Diags :=
  [(t.span, "table " ++ pname ++ " is referenced here"),
   (pt.span, "but it" ++ sq ++ "s not abstract")]

/-- The cyclic-reference diagnostic, at the span of the revisited table. -/
def cyclicDiag (pt : TableDef) (pname : String) : Diags :=
  [(pt.span, "cyclic reference happens at " ++ pname)]

/-- The column-redeclaration diagnostic, at the offending column span. -/
def redeclDiag (c : ColumnDef) : Diags :=
  [(c.span, "column " ++ sq ++ c.id.name ++ sq ++ " is redeclared")]

/-- The missing-indexed-column diagnostic. -/
def idxMissingDiag (i : Ident) (tname : String) : Diags :=
  [(i.span, "indexed column " ++ sq ++ i.name ++ sq ++
    " does not exist in table " ++ sq ++ tname ++ sq)]

/-- The missing-referenced-table diagnostic. -/
def refTableDiag (r : ReferenceDef) : Diags :=
  [(r.span, "table " ++ sq ++ r.table.name ++ sq ++ " is not exist in the schema")]

/-- The missing-referenced-column diagnostic. -/
def refColumnDiag (r : ReferenceDef) : Diags :=
  [(r.column.span, "column " ++ sq ++ r.column.name ++ sq ++
    " is not existed in the table " ++ sq ++ r.table.name ++ sq)]

/-- `Schema::collect_tables`: walk the tables in source order, failing on
the first name collision with the two-label redeclaration diagnostic. -/
def collectTables (seen : List TableDef) : List TableDef → Except Diags Unit
  | [] => .ok ()
  | t :: rest =>
    match findTable seen t.id.name with
    | some prev => .error (tableRedeclDiag prev t)
    | none => collectTables (seen ++ [t]) rest

/-- `Schema::check_extension`: every `extended_by` parent must exist and
be abstract.  The map iteration order is the `ord` argument. -/
def checkExtension (tm : List TableDef) : List TableDef → Except Diags Unit
  | [] => .ok ()
  | t :: rest =>
    match t.extendedBy with
    | none => checkExtension tm rest
    | some pid =>
      match findTable tm pid.name with
      | none => .error (parentMissingDiag pid)
      | some pt =>
        if pt.isAbstract then checkExtension tm rest
        else .error (nonAbstractDiag t pt pid.name)

/-- One walk of `check_cyclic_extension`.  The explicit stack in the
source never holds more than one element (each table has at most one
parent), so the loop is a linear walk up the parent chain. `none`
models either exhausted fuel or the `unwrap` on a missing parent. -/
def walkCyc (tm : List TableDef) : Nat → TableDef → List String → List String →
    Option (Except Diags (List String))
  | 0, _, _, _ => none
  | fuel + 1, cur, visited, checked =>
    let visited' := cur.id.name :: visited
    match cur.extendedBy with
    | none => some (.ok visited')
    | some pid =>
      if checked.contains pid.name then some (.ok visited')
      else
        match findTable tm pid.name with
        | none => none
        | some pt =>
          if visited'.contains pid.name then
            some (.error (cyclicDiag pt pid.name))
          else walkCyc tm fuel pt visited' checked

/-- Outer loop of `check_cyclic_extension` over the name-sorted tables,
accumulating the global `checked` set. -/
def checkCyclicGo (tm : List TableDef) : List TableDef → List String →
    Option (Except Diags Unit)
  | [], _ => some (.ok ())
  | t :: rest, checked =>
    if checked.contains t.id.name then checkCyclicGo tm rest checked
    else
      match walkCyc tm (tm.length + 1) t [] checked with
      | none => none
      | some (.error e) => some (.error e)
      | some (.ok vis) => checkCyclicGo tm rest (checked ++ vis)

/-- Lexicographic comparison of character lists, mirroring the byte
order Rust uses on `&str` keys. -/
def charListLe : List Char → List Char → Bool
  | [], _ => true
  | _ :: _, [] => false
  | a :: as, b :: bs =>
    if a.toNat < b.toNat then true
    else if b.toNat < a.toNat then false
    else charListLe as bs

def strLe (a b : String) : Bool := charListLe a.data b.data

/-- Insertion sort by table name, mirroring `sort_by_key` on the map
values (keys are unique past `collect_tables`, so the result does not
depend on the incoming map order). -/
def insertByName (t : TableDef) : List TableDef → List TableDef
  | [] => [t]
  | u :: rest =>
    if strLe t.id.name u.id.name then t :: u :: rest else u :: insertByName t rest

def sortByName : List TableDef → List TableDef
  | [] => []
  | t :: rest => insertByName t (sortByName rest)

/-- `Schema::check_cyclic_extension`. -/
def checkCyclicExtension (tm ord : List TableDef) : Option (Except Diags Unit) :=
  checkCyclicGo tm (sortByName ord) []

/-- The per-table column accumulator: a name-keyed association list
standing for the `extension_columns` HashMap. -/
abbrev ColAcc := List (String × ColumnDef)

/-- Unchecked `HashMap::insert` used for the starting table: an existing
key is silently overwritten (the later declaration wins). -/
def insertOwn (acc : ColAcc) (c : ColumnDef) : ColAcc :=
  if acc.any (fun p => p.1 == c.id.name) then
    acc.map (fun p => if p.1 == c.id.name then (p.1, c) else p)
  else acc ++ [(c.id.name, c)]

def ownColumns (cols : List ColumnDef) : ColAcc :=
  cols.foldl insertOwn []

/-- The `check_column` closure of `build_extension_context`: merge a
parent column list into the accumulator, failing on a name already
present. -/
def checkedInsert : ColAcc → List ColumnDef → Except Diags ColAcc
  | acc, [] => .ok acc
  | acc, c :: rest =>
    if acc.any (fun p => p.1 == c.id.name) then
      .error (redeclDiag c)
    else checkedInsert (acc ++ [(c.id.name, c)]) rest

/-- The flattened-context map: table name to its effective column list. -/
abbrev Ctx := List (String × List ColumnDef)

def lookupCtx (ctx : Ctx) (n : String) : Option (List ColumnDef) :=
  (ctx.find? (fun p => p.1 == n)).map (fun p => p.2)

/-- The memoized upward walk of `build_extension_context`: follow the
parent chain, splicing the cached flattened set of the first already
resolved ancestor, otherwise merging each ancestor column list on the
way up.  `none` models exhausted fuel or the `unwrap` on a missing
parent. -/
def walkFlat (tm : List TableDef) (ctx : Ctx) : Nat → TableDef → ColAcc →
    Option (Except Diags ColAcc)
  | 0, _, _ => none
  | fuel + 1, cur, acc =>
    match cur.extendedBy with
    | none => some (.ok acc)
    | some pid =>
      match lookupCtx ctx pid.name with
      | some pcols => some (checkedInsert acc pcols)
      | none =>
        match findTable tm pid.name with
        | none => none
        | some pt =>
          match checkedInsert acc pt.columns with
          | .error e => some (.error e)
          | .ok acc' => walkFlat tm ctx fuel pt acc'

/-- The context-building loop of `build_extension_context`, iterating
the table map in the order `ord`. -/
def buildCtxGo (tm : List TableDef) : List TableDef → Ctx → Option (Except Diags Ctx)
  | [], ctx => some (.ok ctx)
  | t :: rest, ctx =>
    match walkFlat tm ctx (tm.length + 1) t (ownColumns t.columns) with
    | none => none
    | some (.error e) => some (.error e)
    | some (.ok acc) => buildCtxGo tm rest (ctx ++ [(t.id.name, acc.map (fun p => p.2))])

/-- `Schema::build_extension_context`: collect tables, check extension
well-formedness, detect cycles, then flatten the effective column sets. -/
def buildExtensionContext (ord : List TableDef) (s : Schema) :
    Option (Except Diags Ctx) :=
  match collectTables [] s.tables with
  | .error e => some (.error e)
  | .ok () =>
    match checkExtension s.tables ord with
    | .error e => some (.error e)
    | .ok () =>
      match checkCyclicExtension s.tables ord with
      | none => none
      | some (.error e) => some (.error e)
      | some (.ok ()) => buildCtxGo s.tables ord []

/-- Index-column check over the identifiers of one composite index. -/
def checkIdxIds (valid : List String) (tname : String) : List Ident →
    Except Diags Unit
  | [] => .ok ()
  | i :: rest =>
    if valid.contains i.name then checkIdxIds valid tname rest
    else .error (idxMissingDiag i tname)

/-- The index items of one table, in order, short-circuiting at the
first missing column. -/
def checkIdxItems (valid : List String) (tname : String) : List Index →
    Except Diags Unit
  | [] => .ok ()
  | .single i _ :: rest =>
    if valid.contains i.name then checkIdxItems valid tname rest
    else .error (idxMissingDiag i tname)
  | .composite ids _ :: rest =>
    match checkIdxIds valid tname ids with
    | .error e => .error e
    | .ok () => checkIdxItems valid tname rest

/-- The index-validation loop of `Schema::check` over the tables in
source order; `none` models the `expect` on a table absent from the
context. -/
def checkIndexes (ctx : Ctx) : List TableDef → Option (Except Diags Unit)
  | [] => some (.ok ())
  | t :: rest =>
    match t.indexes with
    | none => checkIndexes ctx rest
    | some idxs =>
      match lookupCtx ctx t.id.name with
      | none => none
      | some cols =>
        match checkIdxItems (cols.map (fun c => c.id.name)) t.id.name idxs with
        | .error e => some (.error e)
        | .ok () => checkIndexes ctx rest

/-- The reference-validation loop over the columns of one table. -/
def checkRefCols (ctx : Ctx) : List ColumnDef → Except Diags Unit
  | [] => .ok ()
  | c :: rest =>
    match c.reference with
    | none => checkRefCols ctx rest
    | some r =>
      match lookupCtx ctx r.table.name with
      | none => .error (refTableDiag r)
      | some cols =>
        if cols.any (fun c => c.id.name == r.column.name) then checkRefCols ctx rest
        else .error (refColumnDiag r)

/-- The reference-validation loop of `Schema::check` over the tables in
source order. -/
def checkReferences (ctx : Ctx) : List TableDef → Except Diags Unit
  | [] => .ok ()
  | t :: rest =>
    match checkRefCols ctx t.columns with
    | .error e => .error e
    | .ok () => checkReferences ctx rest

/-- The two validation loops of `Schema::check` that run against the
flattened context: indexes first, then references. -/
def checkAgainst (ctx : Ctx) (tables : List TableDef) : Option (Except Diags Unit) :=
  match checkIndexes ctx tables with
  | none => none
  | some (.error e) => some (.error e)
  | some (.ok ()) =>
    match checkReferences ctx tables with
    | .error e => some (.error e)
    | .ok () => some (.ok ())

/-- `Schema::check`: build the extension context (collect, extension
well-formedness, cycles, flattening), then validate indexes, then
references against it.  `ord` is the HashMap iteration order used by
the context passes. -/
def check (ord : List TableDef) (s : Schema) : Option (Except Diags Unit) :=
  match buildExtensionContext ord s with
  | none => none
  | some (.error e) => some (.error e)
  | some (.ok ctx) => checkAgainst ctx s.tables

/-! ## Lexer (src/lexer.rs)

The logos token set: keywords, punctuation, relation operators, the
identifier class, skipped whitespace and a catch-all error token.  The
lexer is written with fuel so that it reduces definitionally; fuel
`length + 1` is always sufficient (each step consumes at least one
character). -/

inductive Token where
  | errTok
  | abstractKw
  | tableKw
  | extendsKw
  | id (name : String)
  | lbrace
  | rbrace
  | lparen
  | rparen
  | primaryKw
  | uniqueKw
  | refKw
  | refOneToMany
  | refOneToOne
  | refManyToMany
  | dot
  | comma
  | colon
  | indexesKw
  | whitespace
deriving DecidableEq, Repr

/-- The skipped character class `[ \t\f\n]`. -/
def isWsChar (c : Char) : Bool :=
  c = ' ' || c = '\t' || c = '\x0c' || c = '\n'

/-- First character of the identifier class `[a-zA-Z]`. -/
def isAlphaChar (c : Char) : Bool :=
  ('a' ≤ c && c ≤ 'z') || ('A' ≤ c && c ≤ 'Z')

/-- Continuation character of the identifier class `[a-zA-Z0-9_]`. -/
def isIdentChar (c : Char) : Bool :=
  isAlphaChar c || ('0' ≤ c && c ≤ '9') || c = '_'

/-- Keyword resolution for an identifier-shaped run (logos gives the
exact keyword tokens priority over the identifier regex at equal
length). -/
def keywordOf (s : String) : Token :=
  if s = "abstract" then .abstractKw
  else if s = "table" then .tableKw
  else if s = "extends" then .extendsKw
  else if s = "primary" then .primaryKw
  else if s = "unique" then .uniqueKw
  else if s = "ref" then .refKw
  else if s = "indexes" then .indexesKw
  else .id s

/-- One punctuation/operator/error step: the token matched at a
non-whitespace, non-identifier position, together with the number of
characters it consumes (two for the relation operators when their
second character is present, otherwise one; anything unmatched is the
one-character error token). -/
def lexStep (c : Char) (rest : List Char) : Token × Nat :=
  if c = '=' then
    match rest with
    | d :: _ =>
      if d = '>' then (.refOneToMany, 2)
      else if d = '=' then (.refOneToOne, 2)
      else (.errTok, 1)
    | [] => (.errTok, 1)
  else if c = '<' then
    match rest with
    | d :: _ => if d = '>' then (.refManyToMany, 2) else (.errTok, 1)
    | [] => (.errTok, 1)
  else if c = '{' then (.lbrace, 1)
  else if c = '}' then (.rbrace, 1)
  else if c = '(' then (.lparen, 1)
  else if c = ')' then (.rparen, 1)
  else if c = '.' then (.dot, 1)
  else if c = ',' then (.comma, 1)
  else if c = ':' then (.colon, 1)
  else (.errTok, 1)

/-- One maximal-munch pass over the character list.  Whitespace runs are
skipped without emitting a token; an unmatched character becomes a
one-character error token carrying its own span. -/
def lexAux : Nat → Nat → List Char → List (Token × Span)
  | 0, _, _ => []
  | _ + 1, _, [] => []
  | fuel + 1, pos, c :: rest =>
    if isWsChar c then
      let run := (c :: rest).takeWhile isWsChar
      lexAux fuel (pos + run.length) ((c :: rest).dropWhile isWsChar)
    else if isAlphaChar c then
      let run := (c :: rest).takeWhile isIdentChar
      (keywordOf (String.mk run), (pos, pos + run.length)) ::
        lexAux fuel (pos + run.length) ((c :: rest).dropWhile isIdentChar)
    else
      let (tok, k) := lexStep c rest
      (tok, (pos, pos + k)) :: lexAux fuel (pos + k) ((c :: rest).drop k)

/-- `lexer::tokenize`, producing the full spanned token list. -/
def lex (src : String) : List (Token × Span) :=
  lexAux (src.data.length + 1) 0 src.data

/-! ## Parser (src/parser.rs)

A deterministic recursive-descent rendering of the chumsky grammar.
Every sub-parser consumes a prefix of the token stream and fails with
`none` (the rich error payload is not needed for the statements below).
Repetitions are written with fuel bounded by the stream length, since
every iteration consumes at least one token. -/

abbrev TokStream := List (Token × Span)

/-- `ident_string`. -/
def pIdent : TokStream → Option (Ident × TokStream)
  | (.id n, sp) :: rest => some (⟨n, sp⟩, rest)
  | _ => none

def pTok (t : Token) : TokStream → Option (Span × TokStream)
  | (u, sp) :: rest => if u = t then some (sp, rest) else none
  | [] => none

/-- `column_attribute_parser`. -/
def pAttr : TokStream → Option ((ColumnAttribute × Span) × TokStream)
  | (.primaryKw, sp) :: rest => some ((.primary, sp), rest)
  | (.uniqueKw, sp) :: rest => some ((.unique, sp), rest)
  | _ => none

/-- `ref_operator_parser`. -/
def pRefOp : TokStream → Option (RefOperator × TokStream)
  | (.refOneToMany, _) :: rest => some (.oneToMany, rest)
  | (.refOneToOne, _) :: rest => some (.oneToOne, rest)
  | (.refManyToMany, _) :: rest => some (.manyToMany, rest)
  | _ => none

/-- `reference_parser`: `"(" "ref" refop ident "." ident ")"`. -/
def pReference (ts : TokStream) : Option (ReferenceDef × TokStream) :=
  match pTok .lparen ts with
  | none => none
  | some (spL, ts) =>
    match pTok .refKw ts with
    | none => none
    | some (_, ts) =>
      match pRefOp ts with
      | none => none
      | some (op, ts) =>
        match pIdent ts with
        | none => none
        | some (tid, ts) =>
          match pTok .dot ts with
          | none => none
          | some (_, ts) =>
            match pIdent ts with
            | none => none
            | some (cid, ts) =>
              match pTok .rparen ts with
              | none => none
              | some (spR, ts) =>
                some (⟨op, tid, cid, (spL.1, spR.2)⟩, ts)

/-- `column_definition_parser`: `ident ":" ident attribute? reference?`. -/
def pColumn (ts : TokStream) : Option (ColumnDef × TokStream) :=
  match pIdent ts with
  | none => none
  | some (cid, ts) =>
    match pTok .colon ts with
    | none => none
    | some (_, ts) =>
      match pIdent ts with
      | none => none
      | some (tyid, ts) =>
        let (attrOpt, ts) :=
          match pAttr ts with
          | some (a, ts') => (some a, ts')
          | none => (none, ts)
        let (refOpt, ts) :=
          match pReference ts with
          | some (r, ts') => (some r, ts')
          | none => (none, ts)
        let stop :=
          match refOpt, attrOpt with
          | some r, _ => r.span.2
          | none, some a => a.2.2
          | none, none => tyid.span.2
        some (⟨cid, tyid, attrOpt.map (fun a => a.1), refOpt,
               (cid.span.1, stop)⟩, ts)

/-- `separated_by(comma).at_least(1)` over a given element parser. -/
def pSepBy1 {α : Type} (p : TokStream → Option (α × TokStream)) :
    Nat → TokStream → Option (List α × TokStream)
  | 0, _ => none
  | fuel + 1, ts =>
    match p ts with
    | none => none
    | some (a, ts) =>
      match pTok .comma ts with
      | none => some ([a], ts)
      | some (_, ts') =>
        match pSepBy1 p fuel ts' with
        | none => some ([a], ts)
        | some (as, ts'') => some (a :: as, ts'')

/-- `composite_index_parser`: `"(" ident ("," ident)+ ")"`. -/
def pCompositeIndex (ts : TokStream) : Option (Index × TokStream) :=
  match pTok .lparen ts with
  | none => none
  | some (spL, ts) =>
    match pSepBy1 pIdent (ts.length + 1) ts with
    | none => none
    | some (ids, ts) =>
      if ids.length < 2 then none
      else
        match pTok .rparen ts with
        | none => none
        | some (spR, ts) => some (.composite ids (spL.1, spR.2), ts)

/-- `index_item_parser`: composite first, otherwise single. -/
def pIndexItem (ts : TokStream) : Option (Index × TokStream) :=
  match pCompositeIndex ts with
  | some r => some r
  | none =>
    match pIdent ts with
    | some (i, ts) => some (.single i i.span, ts)
    | none => none

/-- `index_section_parser`: `"indexes" "{" item ("," item)* "}"`. -/
def pIndexSection (ts : TokStream) : Option (List Index × TokStream) :=
  match pTok .indexesKw ts with
  | none => none
  | some (_, ts) =>
    match pTok .lbrace ts with
    | none => none
    | some (_, ts) =>
      match pSepBy1 pIndexItem (ts.length + 1) ts with
      | none => none
      | some (items, ts) =>
        match pTok .rbrace ts with
        | none => none
        | some (_, ts) => some (items, ts)

/-- `table_parser`.  Note: the source maps the parsed tuple through a
closure that binds the index section as `_indexes_opt` and then builds
the `TableDef` literal without an `indexes` field, so the parsed index
items are dropped; the embedding renders the built value with
`indexes := none`. -/
def pTable (ts : TokStream) : Option (TableDef × TokStream) :=
  let (isAbs, ts, startSp) :=
    match ts with
    | (.abstractKw, sp) :: rest => (true, rest, some sp)
    | _ => (false, ts, none)
  match pTok .tableKw ts with
  | none => none
  | some (spT, ts) =>
    match pIdent ts with
    | none => none
    | some (tid, ts) =>
      let (ext, ts) :=
        match ts with
        | (.extendsKw, _) :: rest =>
          match pIdent rest with
          | some (pid, ts') => (some pid, ts')
          | none => (none, ts)
        | _ => (none, ts)
      match pTok .lbrace ts with
      | none => none
      | some (_, ts) =>
        match pSepBy1 pColumn (ts.length + 1) ts with
        | none => none
        | some (cols, ts) =>
          let (_idxOpt, ts) :=
            match pIndexSection ts with
            | some (idxs, ts') => (some idxs, ts')
            | none => (none, ts)
          match pTok .rbrace ts with
          | none => none
          | some (spR, ts) =>
            let start := (startSp.getD spT).1
            some (⟨tid, isAbs, ext, cols, none, (start, spR.2)⟩, ts)

/-- `table_parser().repeated().at_least(1)`. -/
def pTables : Nat → TokStream → Option (List TableDef × TokStream)
  | 0, _ => none
  | fuel + 1, ts =>
    match pTable ts with
    | none => none
    | some (t, ts) =>
      match pTables fuel ts with
      | some (more, ts') => some (t :: more, ts')
      | none => some ([t], ts)

/-- `schema_parser` followed by `end`, i.e. `parser::parse`: at least
one table, no trailing tokens, and the constant schema name. -/
def parse (src : String) : Option Schema :=
  let ts := lex src
  match pTables (ts.length + 1) ts with
  | none => none
  | some (tables, rest) =>
    match rest with
    | [] =>
      let start := (tables.head?.map (fun t => t.span.1)).getD 0
      let stop := ((tables.getLast?).map (fun t => t.span.2)).getD 0
      some ⟨"main.mecha", tables, (start, stop)⟩
    | _ :: _ => none

/-! ## Derived notions used in the statements -/

/-- The names of a table list. -/
def tableNames (tm : List TableDef) : List String :=
  tm.map (fun t => t.id.name)

/-- The column names a table declares itself. -/
def colNames (t : TableDef) : List String :=
  t.columns.map (fun c => c.id.name)

/-- The key list of a column accumulator. -/
def accKeys (acc : ColAcc) : List String :=
  acc.map (fun p => p.1)

/-- The key list of a context. -/
def ctxKeys (ctx : Ctx) : List String :=
  ctx.map (fun p => p.1)

/-- The parent of a table under the `extended_by` edge, resolved against
the table map. -/
def parentT (tm : List TableDef) (t : TableDef) : Option TableDef :=
  t.extendedBy.bind (fun pid => findTable tm pid.name)

/-- `rooted tm f t`: following `extended_by` from `t` reaches a table
with no parent in at most `f` steps. -/
def rooted (tm : List TableDef) : Nat → TableDef → Bool
  | 0, t => (parentT tm t).isNone
  | f + 1, t =>
    match parentT tm t with
    | none => true
    | some p => rooted tm f p

/-- `t` followed by its ancestors, reading at most `f` parent edges. -/
def chainF (tm : List TableDef) : Nat → TableDef → List TableDef
  | 0, t => [t]
  | f + 1, t =>
    t :: (match parentT tm t with
          | none => []
          | some p => chainF tm f p)

/-- The inheritance chain of a table (fuel `tm.length` is always enough
once the schema is known acyclic). -/
def chain (tm : List TableDef) (t : TableDef) : List TableDef :=
  chainF tm tm.length t

/-- The effective column-name set of a table: its own column names
together with the column names of every ancestor reached by following
`extended_by` transitively. -/
def effNames (tm : List TableDef) (t : TableDef) : List String :=
  (chain tm t).flatMap colNames

/-- Iterated parent step. -/
def iterParent (tm : List TableDef) : Nat → TableDef → Option TableDef
  | 0, t => some t
  | k + 1, t =>
    match parentT tm t with
    | none => none
    | some p => iterParent tm k p

/-! ## Concrete inputs and derived predicates used in the statements -/

/-- The positive inheritance example: an abstract parent and a concrete
child. -/
def srcC1 : String :=
  "abstract table bar \x7b id: string \x7d table foo extends bar \x7b name: uuid4 \x7d"

/-- The input of the crate test `test_indexes_not_exist_1`: a table with
an `indexes` section naming a column that does not exist. -/
def srcIndexesDropped : String :=
  "table foo \x7b id: uuid indexes \x7b id, name \x7d \x7d"

/-- The two-table inheritance cycle from the crate tests. -/
def srcCyclic : String :=
  "abstract table bar extends foo \x7b id: string \x7d abstract table foo extends bar \x7b name: uuid4 \x7d"

/-- A reference whose target column is only inherited by the target
table. -/
def srcRefInherited : String :=
  "abstract table common \x7b id: uuid \x7d table foo extends common \x7b name: string \x7d table baz \x7b foo_id: uuid (ref => foo.id) \x7d"

/-- A reference to an undeclared table. -/
def srcRefNoTable : String :=
  "table foo \x7b id: uuid, bar_id: uuid (ref => bar.id) \x7d"

/-- A table declaring the same column name twice in its own column
list. -/
def dupColumnTable : TableDef :=
  ⟨⟨"foo", (6, 9)⟩, false, none,
   [⟨⟨"id", (12, 14)⟩, ⟨"string", (16, 22)⟩, none, none, (12, 22)⟩,
    ⟨⟨"id", (24, 26)⟩, ⟨"uuid", (28, 32)⟩, none, none, (24, 32)⟩], none, (0, 34)⟩

def dupColumnSchema : Schema := ⟨"main.mecha", [dupColumnTable], (0, 34)⟩

/-- An abstract table declaring `id` twice; flattening it into a child
detects the duplicate only when the child is processed before the
parent. -/
def ceBar : TableDef :=
  ⟨⟨"bar", (15, 18)⟩, true, none,
   [⟨⟨"id", (21, 23)⟩, ⟨"a", (25, 26)⟩, none, none, (21, 26)⟩,
    ⟨⟨"id", (28, 30)⟩, ⟨"b", (32, 33)⟩, none, none, (28, 33)⟩], none, (0, 35)⟩

def ceFoo : TableDef :=
  ⟨⟨"foo", (42, 45)⟩, false, some ⟨"bar", (54, 57)⟩,
   [⟨⟨"x", (60, 61)⟩, ⟨"t", (63, 64)⟩, none, none, (60, 64)⟩], none, (36, 66)⟩

def ceSchema : Schema := ⟨"main.mecha", [ceBar, ceFoo], (0, 66)⟩

/-- A schema whose first table is declared twice. -/
def dupTableSchema : Schema :=
  ⟨"main.mecha",
   [⟨⟨"foo", (6, 9)⟩, false, none,
     [⟨⟨"id", (12, 14)⟩, ⟨"string", (16, 22)⟩, none, none, (12, 22)⟩], none, (0, 24)⟩,
    ⟨⟨"foo", (31, 34)⟩, false, none,
     [⟨⟨"name", (37, 41)⟩, ⟨"uuid4", (43, 48)⟩, none, none, (37, 48)⟩], none, (25, 50)⟩],
   (0, 50)⟩

def schC1 : Schema :=
  match parse srcC1 with
  | some s => s
  | none => ⟨"", [], (0, 0)⟩

def ctxC1 : Ctx :=
  match buildExtensionContext schC1.tables schC1 with
  | some (.ok c) => c
  | _ => []

def schCyc : Schema :=
  match parse srcCyclic with
  | some s => s
  | none => ⟨"", [], (0, 0)⟩

def schRef : Schema :=
  match parse srcRefInherited with
  | some s => s
  | none => ⟨"", [], (0, 0)⟩

def ctxRef : Ctx :=
  match buildExtensionContext schRef.tables schRef with
  | some (.ok c) => c
  | _ => []

/-- An input containing an unmatched character (a percent sign and a
carriage return, neither in the whitespace class). -/
def srcLex : String := "table fo% \x0d extends"

/-- `t` reaches a parentless table after exactly `k` steps. -/
def isRootAtB (tm : List TableDef) (t : TableDef) (k : Nat) : Bool :=
  match iterParent tm k t with
  | some u => (parentT tm u).isNone
  | none => false

/-- Rootedness of the (unique) table carrying a given name. -/
def namesRooted (tm : List TableDef) (x : String) : Prop :=
  ∀ u, findTable tm x = some u → ∃ f, rooted tm f u = true

/-- Accumulator well-formedness: every entry is keyed by its column
name. -/
def accWf (acc : ColAcc) : Prop :=
  ∀ p ∈ acc, p.2.id.name = p.1

/-- No column name occurs at two distinct levels of a table's
inheritance chain. -/
def chainDisjoint (tm : List TableDef) (t : TableDef) : Prop :=
  (chain tm t).Pairwise (fun a b => ∀ x, x ∈ colNames a → x ∉ colNames b)

/-- Partial-context invariant: every cached entry belongs to a table of
the map, its column names are exactly that table's effective name set,
without duplicates, and the table's chain is level-disjoint. -/
def ctxGood (tm : List TableDef) (ctx : Ctx) : Prop :=
  ∀ p ∈ ctx, ∃ t ∈ tm, t.id.name = p.1 ∧
    (p.2.map (fun c => c.id.name)).Nodup ∧
    (∀ x, x ∈ p.2.map (fun c => c.id.name) ↔ x ∈ effNames tm t) ∧
    chainDisjoint tm t

/-! ## Basic lemmas -/

theorem findTable_eq_none {tm : List TableDef} {n : String} :
    findTable tm n = none ↔ ∀ t ∈ tm, t.id.name ≠ n := by
  simp [findTable, List.find?_eq_none]

theorem findTable_some_mem {tm : List TableDef} {n : String} {t : TableDef}
    (h : findTable tm n = some t) : t ∈ tm ∧ t.id.name = n := by
  refine ⟨List.mem_of_find?_eq_some h, ?_⟩
  have h2 := List.find?_some h
  simpa using h2

theorem findTable_of_mem {tm : List TableDef} {t : TableDef}
    (hnodup : (tableNames tm).Nodup) (ht : t ∈ tm) :
    findTable tm t.id.name = some t := by
  induction tm with
  | nil => cases ht
  | cons u rest ih =>
    rcases List.mem_cons.mp ht with h | h
    · subst h
      simp [findTable]
    · have hne : u.id.name ≠ t.id.name := by
        intro he
        have : t.id.name ∈ tableNames rest := List.mem_map_of_mem _ h
        rw [tableNames, List.map_cons, List.nodup_cons] at hnodup
        exact hnodup.1 (he ▸ this)
      have hrest : (tableNames rest).Nodup := by
        rw [tableNames, List.map_cons, List.nodup_cons] at hnodup
        exact hnodup.2
      have hstep : findTable (u :: rest) t.id.name = findTable rest t.id.name := by
        simp [findTable, List.find?_cons_of_neg, hne]
      rw [hstep]
      exact ih hrest h

/-- A successful `collect_tables` means the table names are unique. -/
theorem collectTables_ok_nodup :
    ∀ (rest seen : List TableDef),
      collectTables seen rest = .ok () →
      (tableNames seen).Nodup →
      (tableNames (seen ++ rest)).Nodup
  | [], seen, _, hseen => by simpa using hseen
  | t :: rest, seen, h, hseen => by
    rw [collectTables] at h
    cases hf : findTable seen t.id.name with
    | some prev => rw [hf] at h; cases h
    | none =>
      rw [hf] at h
      have := collectTables_ok_nodup rest (seen ++ [t]) h (by
        have hnot : ∀ u ∈ seen, u.id.name ≠ t.id.name := findTable_eq_none.mp hf
        rw [tableNames, List.map_append, List.nodup_append]
        refine ⟨hseen, by simp, ?_⟩
        intro x hx hx2
        rcases List.mem_map.mp hx with ⟨u, hu, he⟩
        have hxt : x = t.id.name := by simpa using hx2
        exact hnot u hu (he.trans hxt))
      simpa using this

/-- A successful `check_extension` means every parent named by a table in
the iterated list exists in the map and is abstract. -/
theorem checkExtension_ok :
    ∀ (ord : List TableDef) (tm : List TableDef),
      checkExtension tm ord = .ok () →
      ∀ t ∈ ord, ∀ pid, t.extendedBy = some pid →
        ∃ pt, findTable tm pid.name = some pt ∧ pt.isAbstract = true
  | [], _, _, t, ht, _, _ => by cases ht
  | t :: rest, tm, h, u, hu, pid, hpid => by
    rw [checkExtension] at h
    rcases List.mem_cons.mp hu with he | hmem
    · subst he
      split at h
      · next hext => rw [hpid] at hext; cases hext
      · next pid2 hext =>
        rw [hpid] at hext
        injection hext with he2
        subst he2
        split at h
        · cases h
        · next pt hf =>
          split at h
          · next ha => exact ⟨pt, hf, ha⟩
          · cases h
    · have htail : checkExtension tm rest = .ok () := by
        split at h
        · exact h
        · split at h
          · cases h
          · split at h
            · exact h
            · cases h
      exact checkExtension_ok rest tm htail u hmem pid hpid

/-! ## Concrete inputs used by witnesses and counterexamples -/

/-! ## C10: the parsed schema name is the constant "main.mecha" -/

/-- C10: for every source text, a successful `parse` returns a `Schema`
whose `name` field is the constant string "main.mecha", independent of
the source contents (the parser takes no caller-supplied name at all). -/
theorem parse_name_constant (src : String) (sch : Schema)
    (h : parse src = some sch) : sch.name = "main.mecha" := by
  rw [parse] at h
  cases hp : pTables (lex src).length.succ (lex src) with
  | none => rw [hp] at h; cases h
  | some r =>
    rw [hp] at h
    obtain ⟨tables, rest⟩ := r
    cases rest with
    | nil =>
      simp only at h
      cases h
      rfl
    | cons a l => simp at h

/-- Witness for C10 at the concrete input `srcC1`. -/
theorem parse_name_constant_witness :
    parse srcC1 = some schC1 ∧ schC1.name = "main.mecha" :=
  ⟨rfl, parse_name_constant srcC1 schC1 rfl⟩

/-! ## C5: the parser drops the parsed index section -/

/-- C5 (divergence witness): on the input of the crate test
`test_indexes_not_exist_1`, whose source text contains an `indexes`
section, `parse` succeeds but the returned table has `indexes = none`
(the `table_parser` closure binds the section as `_indexes_opt` and
builds the `TableDef` without it), and consequently `check` accepts the
schema the test requires to be rejected. -/
theorem parse_drops_indexes :
    ((lex srcIndexesDropped).map Prod.fst).contains Token.indexesKw = true ∧
    (parse srcIndexesDropped).map (fun s => s.tables.map (fun t => t.indexes))
      = some [none] ∧
    (parse srcIndexesDropped).bind (fun s => check s.tables s) = some (.ok ()) := by
  refine ⟨by decide, by decide, by rfl⟩

/-! ## C4: fixed pass order with fail-fast short-circuiting -/

/-- C4: `check` runs collect-tables, extension well-formedness, cycle
detection, column flattening, index validation and reference validation
in that fixed order; the diagnostics of the first failing pass are
returned unchanged and no later pass influences the result; if every
pass succeeds the result is `Ok`.  There is no partial-success value. -/
theorem check_pass_order (ord : List TableDef) (s : Schema) :
    (∀ e, collectTables [] s.tables = .error e → check ord s = some (.error e)) ∧
    (collectTables [] s.tables = .ok () →
      (∀ e, checkExtension s.tables ord = .error e → check ord s = some (.error e)) ∧
      (checkExtension s.tables ord = .ok () →
        (∀ e, checkCyclicExtension s.tables ord = some (.error e) →
            check ord s = some (.error e)) ∧
        (checkCyclicExtension s.tables ord = some (.ok ()) →
          (∀ e, buildCtxGo s.tables ord [] = some (.error e) →
              check ord s = some (.error e)) ∧
          (∀ ctx, buildCtxGo s.tables ord [] = some (.ok ctx) →
            (∀ e, checkIndexes ctx s.tables = some (.error e) →
                check ord s = some (.error e)) ∧
            (checkIndexes ctx s.tables = some (.ok ()) →
              (∀ e, checkReferences ctx s.tables = .error e →
                  check ord s = some (.error e)) ∧
              (checkReferences ctx s.tables = .ok () →
                  check ord s = some (.ok ()))))))) := by
  refine ⟨fun e h1 => by simp [check, buildExtensionContext, h1], fun h1 => ?_⟩
  refine ⟨fun e h2 => by simp [check, buildExtensionContext, h1, h2], fun h2 => ?_⟩
  refine ⟨fun e h3 => by simp [check, buildExtensionContext, h1, h2, h3], fun h3 => ?_⟩
  refine ⟨fun e h4 => by simp [check, buildExtensionContext, h1, h2, h3, h4], fun ctx h4 => ?_⟩
  refine ⟨fun e h5 => by simp [check, checkAgainst, buildExtensionContext, h1, h2, h3, h4, h5], fun h5 => ?_⟩
  exact ⟨fun e h6 => by simp [check, checkAgainst, buildExtensionContext, h1, h2, h3, h4, h5, h6],
         fun h6 => by simp [check, checkAgainst, buildExtensionContext, h1, h2, h3, h4, h5, h6]⟩

/-- Witness for C4: on a schema with a duplicated table name the first
pass fails and its two-label diagnostic is the entire result. -/
theorem check_pass_order_witness :
    collectTables [] dupTableSchema.tables
      = .error (tableRedeclDiag (dupTableSchema.tables.get ⟨0, by decide⟩)
                                 (dupTableSchema.tables.get ⟨1, by decide⟩)) ∧
    check [] dupTableSchema
      = some (.error (tableRedeclDiag (dupTableSchema.tables.get ⟨0, by decide⟩)
                                       (dupTableSchema.tables.get ⟨1, by decide⟩))) :=
  ⟨by rfl, (check_pass_order [] dupTableSchema).1 _ (by rfl)⟩

/-! ## C6: determinism only relative to the map iteration order -/

/-- C6 (counterexample): on `ceSchema` the success/failure outcome of
`check` depends on the HashMap iteration order.  Both orders below are
permutations of the schema tables, i.e. legitimate iteration orders of
the same table map, yet one run reports a column redeclaration and the
other accepts the schema. -/
theorem check_not_order_independent :
    List.Perm [ceFoo, ceBar] ceSchema.tables ∧
    List.Perm [ceBar, ceFoo] ceSchema.tables ∧
    check [ceFoo, ceBar] ceSchema
      = some (.error (redeclDiag (ceBar.columns.get ⟨1, by decide⟩))) ∧
    check [ceBar, ceFoo] ceSchema = some (.ok ()) := by
  refine ⟨List.Perm.swap ceBar ceFoo [], List.Perm.refl _, by rfl, by rfl⟩

/-- C6 (amended): `check` is a pure function of the parsed schema and
the map iteration order: parsing the same source twice yields equal
schemas, and two runs that iterate the table map in the same order
return the same outcome and the same diagnostics. -/
theorem check_deterministic_given_order (src : String) (ord : List TableDef)
    (s1 s2 : Schema) (h1 : parse src = some s1) (h2 : parse src = some s2) :
    s1 = s2 ∧ check ord s1 = check ord s2 := by
  have he : s1 = s2 := by
    rw [h1] at h2
    exact (Option.some.injEq _ _).mp h2
  exact ⟨he, by rw [he]⟩

/-- Witness for the amended C6 at the concrete input `srcC1`. -/
theorem check_deterministic_given_order_witness :
    parse srcC1 = some schC1 ∧
    (schC1 = schC1 ∧ check schC1.tables schC1 = check schC1.tables schC1) :=
  ⟨rfl, check_deterministic_given_order srcC1 schC1.tables schC1 schC1 rfl rfl⟩

/-! ## C2, counterexample half: a duplicate inside one table's own
column list is accepted -/

/-- C2 (counterexample): `check` accepts a schema in which a table
declares the same column name twice in its own column list, for every
iteration order of its single table (`HashMap::insert` silently
overwrites the earlier column), contradicting the claim that such a
schema is rejected. -/
theorem check_accepts_own_duplicate :
    dupColumnTable ∈ dupColumnSchema.tables ∧
    ¬ (colNames dupColumnTable).Nodup ∧
    check dupColumnSchema.tables dupColumnSchema = some (.ok ()) := by
  refine ⟨by decide, by decide, by rfl⟩

/-! ## Rootedness: lemmas about the parent walk -/

theorem rooted_mono {tm : List TableDef} :
    ∀ {f g : Nat} {t : TableDef}, rooted tm f t = true → f ≤ g → rooted tm g t = true := by
  intro f
  induction f with
  | zero =>
    intro g t h _
    cases g with
    | zero => exact h
    | succ g =>
      simp only [rooted] at h ⊢
      cases hp : parentT tm t with
      | none => simp only [hp]
      | some p => simp only [hp, Option.isNone] at h; cases h
  | succ f ih =>
    intro g t h hle
    cases g with
    | zero => omega
    | succ g =>
      simp only [rooted] at h ⊢
      cases hp : parentT tm t with
      | none => simp only [hp]
      | some p =>
        simp only [hp] at h ⊢
        exact ih h (by omega)

theorem rooted_parent_step {tm : List TableDef} {t p : TableDef} {f : Nat}
    (hp : parentT tm t = some p) (h : rooted tm f p = true) :
    rooted tm (f + 1) t = true := by
  rw [rooted, hp]
  exact h

theorem iterParent_none_step {tm : List TableDef} {t : TableDef}
    (h : parentT tm t = none) : ∀ k, iterParent tm (k + 1) t = none := by
  intro k
  rw [iterParent, h]

theorem iterParent_add (tm : List TableDef) :
    ∀ (k m : Nat) (t u : TableDef), iterParent tm k t = some u →
      iterParent tm (k + m) t = iterParent tm m u := by
  intro k
  induction k with
  | zero =>
    intro m t u h
    rw [iterParent] at h
    cases h
    simp
  | succ k ih =>
    intro m t u h
    rw [iterParent] at h
    cases hp : parentT tm t with
    | none => rw [hp] at h; cases h
    | some p =>
      rw [hp] at h
      have : k + 1 + m = (k + m) + 1 := by omega
      rw [this, iterParent, hp]
      exact ih m p u h

theorem iterParent_mem {tm : List TableDef} :
    ∀ {k : Nat} {t u : TableDef}, t ∈ tm → iterParent tm k t = some u → u ∈ tm := by
  intro k
  induction k with
  | zero =>
    intro t u ht h
    rw [iterParent] at h
    cases h
    exact ht
  | succ k ih =>
    intro t u ht h
    rw [iterParent] at h
    cases hp : parentT tm t with
    | none => rw [hp] at h; cases h
    | some p =>
      rw [hp] at h
      have hpmem : p ∈ tm := by
        rw [parentT] at hp
        cases hext : t.extendedBy with
        | none => rw [hext] at hp; cases hp
        | some pid =>
          rw [hext] at hp
          exact (findTable_some_mem (show findTable tm pid.name = some p from hp)).1
      exact ih hpmem h

theorem rooted_iff_isRootAt {tm : List TableDef} :
    ∀ {f : Nat} {t : TableDef},
      rooted tm f t = true ↔ ∃ k ≤ f, isRootAtB tm t k = true := by
  intro f
  induction f with
  | zero =>
    intro t
    constructor
    · intro h
      refine ⟨0, le_refl 0, ?_⟩
      rw [isRootAtB, iterParent]
      exact h
    · rintro ⟨k, hk, h⟩
      interval_cases k
      simp only [isRootAtB, iterParent] at h
      exact h
  | succ f ih =>
    intro t
    constructor
    · intro h
      simp only [rooted] at h
      cases hp : parentT tm t with
      | none =>
        refine ⟨0, by omega, ?_⟩
        simp only [isRootAtB, iterParent, hp]
        rfl
      | some p =>
        simp only [hp] at h
        obtain ⟨k, hk, hr⟩ := ih.mp h
        refine ⟨k + 1, by omega, ?_⟩
        simp only [isRootAtB, iterParent, hp]
        exact hr
    · rintro ⟨k, hk, h⟩
      simp only [rooted]
      cases hp : parentT tm t with
      | none => simp only [hp]
      | some p =>
        simp only [hp]
        cases k with
        | zero =>
          simp only [isRootAtB, iterParent, hp, Option.isNone] at h
          cases h
        | succ k =>
          simp only [isRootAtB, iterParent, hp] at h
          exact ih.mpr ⟨k, by omega, h⟩

theorem rooted_of_iterParent {tm : List TableDef} :
    ∀ {k : Nat} {u cur : TableDef} {f : Nat},
      iterParent tm k u = some cur → rooted tm f cur = true →
      rooted tm (k + f) u = true := by
  intro k
  induction k with
  | zero =>
    intro u cur f h hr
    rw [iterParent] at h
    cases h
    simpa using hr
  | succ k ih =>
    intro u cur f h hr
    rw [iterParent] at h
    cases hp : parentT tm u with
    | none => rw [hp] at h; cases h
    | some p =>
      rw [hp] at h
      have := ih h hr
      have h2 := rooted_parent_step hp this
      have : k + f + 1 = k + 1 + f := by omega
      rw [this] at h2
      exact h2

theorem mem_name_inj {tm : List TableDef} (hnodup : (tableNames tm).Nodup)
    {u v : TableDef} (hu : u ∈ tm) (hv : v ∈ tm) (h : u.id.name = v.id.name) :
    u = v :=
  List.inj_on_of_nodup_map hnodup hu hv h

/-- A failed parent walk stays failed when extended. -/
theorem iterParent_none_add (tm : List TableDef) :
    ∀ (i : Nat) (t : TableDef), iterParent tm i t = none →
      ∀ m, iterParent tm (i + m) t = none := by
  intro i
  induction i with
  | zero =>
    intro t h
    rw [iterParent] at h
    cases h
  | succ i ih =>
    intro t h m
    rw [iterParent] at h
    cases hp : parentT tm t with
    | none =>
      rw [show i + 1 + m = (i + m) + 1 by omega, iterParent, hp]
    | some p =>
      rw [hp] at h
      rw [show i + 1 + m = (i + m) + 1 by omega, iterParent, hp]
      exact ih p h m

/-- Pigeonhole: a table that reaches a root at all reaches it within
`tm.length` steps, because the minimal parent path repeats no table. -/
theorem rooted_bound {tm : List TableDef} (hnodup : (tableNames tm).Nodup)
    {t : TableDef} (ht : t ∈ tm) {f : Nat} (h : rooted tm f t = true) :
    rooted tm tm.length t = true := by
  obtain ⟨k0, _, hk0⟩ := rooted_iff_isRootAt.mp h
  have hex : ∃ k, isRootAtB tm t k = true := ⟨k0, hk0⟩
  have hr : isRootAtB tm t (Nat.find hex) = true := Nat.find_spec hex
  have hmin : ∀ m, m < Nat.find hex → ¬ isRootAtB tm t m = true :=
    fun m hm => Nat.find_min hex hm
  set r := Nat.find hex with hrdef
  obtain ⟨uroot, hu1, hu2⟩ : ∃ u, iterParent tm r t = some u ∧ parentT tm u = none := by
    rw [isRootAtB] at hr
    cases hit : iterParent tm r t with
    | none => rw [hit] at hr; cases hr
    | some u =>
      rw [hit] at hr
      exact ⟨u, rfl, Option.isNone_iff_eq_none.mp hr⟩
  have hdef : ∀ i, i ≤ r → ∃ u, iterParent tm i t = some u := by
    intro i hi
    cases hcase : iterParent tm i t with
    | some u => exact ⟨u, rfl⟩
    | none =>
      exfalso
      have : iterParent tm r t = none := by
        rw [show r = i + (r - i) by omega]
        exact iterParent_none_add tm i t hcase (r - i)
      rw [this] at hu1
      exact Option.noConfusion hu1
  -- the minimal path visits pairwise distinct tables
  have hdist : ∀ i j, i < j → j ≤ r → iterParent tm i t ≠ iterParent tm j t := by
    intro i j hij hjr hcon
    obtain ⟨v, hv⟩ := hdef i (by omega)
    have hvj : iterParent tm j t = some v := by rw [← hcon, hv]
    have hiroot : iterParent tm (i + (r - j)) t = some uroot := by
      have h1 : iterParent tm (i + (r - j)) t = iterParent tm (r - j) v :=
        iterParent_add tm i (r - j) t v hv
      have h2 : iterParent tm (j + (r - j)) t = iterParent tm (r - j) v :=
        iterParent_add tm j (r - j) t v hvj
      rw [show j + (r - j) = r by omega] at h2
      rw [h1, ← h2, hu1]
    have : isRootAtB tm t (i + (r - j)) = true := by
      simp only [isRootAtB, hiroot, hu2]
      rfl
    exact hmin (i + (r - j)) (by omega) this
  -- map the path to table names and count
  have hnames : ∀ i, i ≤ r → ∃ u, iterParent tm i t = some u ∧ u ∈ tm := by
    intro i hi
    obtain ⟨u, hu⟩ := hdef i hi
    exact ⟨u, hu, iterParent_mem ht hu⟩
  let nameAt : Nat → String := fun i =>
    match iterParent tm i t with
    | some u => u.id.name
    | none => ""
  have hnamesNodup : ((List.range (r + 1)).map nameAt).Nodup := by
    rw [List.nodup_map_iff_inj_on (List.nodup_range _)]
    intro i hi j hj hne
    simp only [List.mem_range] at hi hj
    by_contra hneq
    rcases Nat.lt_or_ge i j with hlt | hge
    · obtain ⟨u, hu, humem⟩ := hnames i (by omega)
      obtain ⟨v, hv, hvmem⟩ := hnames j (by omega)
      have : u.id.name = v.id.name := by
        simpa only [nameAt, hu, hv] using hne
      have huv : u = v := mem_name_inj hnodup humem hvmem this
      exact hdist i j hlt (by omega) (by rw [hu, hv, huv])
    · rcases Nat.lt_or_ge j i with hlt | hge2
      · obtain ⟨u, hu, humem⟩ := hnames i (by omega)
        obtain ⟨v, hv, hvmem⟩ := hnames j (by omega)
        have : u.id.name = v.id.name := by
          simpa only [nameAt, hu, hv] using hne
        have huv : u = v := mem_name_inj hnodup humem hvmem this
        exact hdist j i hlt (by omega) (by rw [hu, hv, huv])
      · omega
  have hsub : ((List.range (r + 1)).map nameAt) ⊆ tableNames tm := by
    intro x hx
    rcases List.mem_map.mp hx with ⟨i, hi, hxe⟩
    simp only [List.mem_range] at hi
    obtain ⟨u, hu, humem⟩ := hnames i (by omega)
    have : x = u.id.name := by
      simp only [nameAt, hu] at hxe
      exact hxe.symm
    rw [this]
    exact List.mem_map_of_mem _ humem
  have hlen : r + 1 ≤ tm.length := by
    have h1 := (List.subperm_of_subset hnamesNodup hsub).length_le
    simpa [tableNames] using h1
  exact rooted_iff_isRootAt.mpr ⟨r, by omega, hr⟩

/-! ## Correctness of the cycle-detection pass -/

theorem insertByName_perm (t : TableDef) :
    ∀ l : List TableDef, (insertByName t l).Perm (t :: l)
  | [] => List.Perm.refl _
  | u :: rest => by
    rw [insertByName]
    by_cases h : strLe t.id.name u.id.name
    · rw [if_pos h]
    · rw [if_neg h]
      exact ((insertByName_perm t rest).cons u).trans (List.Perm.swap t u rest)

theorem sortByName_perm : ∀ l : List TableDef, (sortByName l).Perm l
  | [] => List.Perm.refl _
  | t :: rest => by
    rw [sortByName]
    exact (insertByName_perm t _).trans ((sortByName_perm rest).cons t)

/-- One unfolding of the cycle walk, with the membership tests stated
propositionally. -/
theorem walkCyc_succ (tm : List TableDef) (fuel : Nat) (cur : TableDef)
    (visited checked : List String) :
    walkCyc tm (fuel + 1) cur visited checked =
      match cur.extendedBy with
      | none => some (.ok (cur.id.name :: visited))
      | some pid =>
        if pid.name ∈ checked then some (.ok (cur.id.name :: visited))
        else
          match findTable tm pid.name with
          | none => none
          | some pt =>
            if pid.name ∈ cur.id.name :: visited then
              some (.error (cyclicDiag pt pid.name))
            else walkCyc tm fuel pt (cur.id.name :: visited) checked := by
  simp only [walkCyc, List.elem_iff]

/-- With enough fuel the cycle walk never runs out: the visited set grows
by a fresh name at every step and is bounded by the table count. -/
theorem walkCyc_isSome (tm : List TableDef)
    (hpar : ∀ t ∈ tm, ∀ pid, t.extendedBy = some pid →
      (findTable tm pid.name).isSome = true) :
    ∀ (fuel : Nat) (cur : TableDef) (visited checked : List String),
      cur ∈ tm → cur.id.name ∉ visited → visited.Nodup →
      (∀ x ∈ visited, x ∈ tableNames tm) →
      tm.length + 1 ≤ fuel + visited.length →
      (walkCyc tm fuel cur visited checked).isSome = true := by
  intro fuel
  induction fuel with
  | zero =>
    intro cur visited checked hcur hnotin hnd hsubset hlen
    exfalso
    have hnd2 : (cur.id.name :: visited).Nodup := List.nodup_cons.mpr ⟨hnotin, hnd⟩
    have hsub2 : (cur.id.name :: visited) ⊆ tableNames tm := by
      intro x hx
      rcases List.mem_cons.mp hx with he | hm
      · rw [he]; exact List.mem_map_of_mem _ hcur
      · exact hsubset x hm
    have := (List.subperm_of_subset hnd2 hsub2).length_le
    simp only [List.length_cons, tableNames, List.length_map] at this
    omega
  | succ fuel ih =>
    intro cur visited checked hcur hnotin hnd hsubset hlen
    cases hext : cur.extendedBy with
    | none => simp [walkCyc_succ, hext]
    | some pid =>
      simp only [walkCyc_succ, hext]
      by_cases hchk : pid.name ∈ checked
      · rw [if_pos hchk]; rfl
      · rw [if_neg hchk]
        cases hf : findTable tm pid.name with
        | none =>
          exfalso
          have := hpar cur hcur pid hext
          rw [hf] at this
          cases this
        | some pt =>
          simp only [hf]
          by_cases hvis : pid.name ∈ cur.id.name :: visited
          · rw [if_pos hvis]; rfl
          · rw [if_neg hvis]
            have hptmem := (findTable_some_mem hf).1
            have hptname := (findTable_some_mem hf).2
            exact ih pt (cur.id.name :: visited) checked hptmem
              (by rw [hptname]; exact hvis)
              (List.nodup_cons.mpr ⟨hnotin, hnd⟩)
              (by
                intro x hx
                rcases List.mem_cons.mp hx with he | hm
                · rw [he]; exact List.mem_map_of_mem _ hcur
                · exact hsubset x hm)
              (by simp only [List.length_cons]; omega)

/-- The visited set returned by a successful walk contains the start
table and everything visited before. -/
theorem walkCyc_ok_supset (tm : List TableDef) :
    ∀ (fuel : Nat) (cur : TableDef) (visited checked vis : List String),
      walkCyc tm fuel cur visited checked = some (.ok vis) →
      cur.id.name ∈ vis ∧ ∀ x ∈ visited, x ∈ vis := by
  intro fuel
  induction fuel with
  | zero => intro cur visited checked vis h; cases h
  | succ fuel ih =>
    intro cur visited checked vis h
    rw [walkCyc_succ] at h
    cases hext : cur.extendedBy with
    | none =>
      simp only [hext] at h
      simp only [Option.some.injEq, Except.ok.injEq] at h
      subst h
      exact ⟨List.mem_cons_self _ _, fun x hx => List.mem_cons_of_mem _ hx⟩
    | some pid =>
      simp only [hext] at h
      by_cases hchk : pid.name ∈ checked
      · rw [if_pos hchk] at h
        simp only [Option.some.injEq, Except.ok.injEq] at h
        subst h
        exact ⟨List.mem_cons_self _ _, fun x hx => List.mem_cons_of_mem _ hx⟩
      · rw [if_neg hchk] at h
        cases hf : findTable tm pid.name with
        | none => rw [hf] at h; cases h
        | some pt =>
          simp only [hf] at h
          by_cases hvis : pid.name ∈ cur.id.name :: visited
          · rw [if_pos hvis] at h; cases h
          · rw [if_neg hvis] at h
            obtain ⟨h1, h2⟩ := ih pt (cur.id.name :: visited) checked vis h
            exact ⟨h2 _ (List.mem_cons_self _ _),
                   fun x hx => h2 x (List.mem_cons_of_mem _ hx)⟩

theorem iterParent_one {tm : List TableDef} {t p : TableDef}
    (h : parentT tm t = some p) : iterParent tm 1 t = some p := by
  show iterParent tm (0 + 1) t = some p
  simp only [iterParent, h]

/-- Everything a successful walk has visited is rooted. -/
theorem walkCyc_ok_sound (tm : List TableDef)
    (hnodup : (tableNames tm).Nodup) :
    ∀ (fuel : Nat) (cur : TableDef) (visited checked vis : List String),
      cur ∈ tm →
      (∀ x ∈ checked, namesRooted tm x) →
      (∀ x ∈ visited, ∀ u, findTable tm x = some u →
        ∃ k, iterParent tm k u = some cur) →
      walkCyc tm fuel cur visited checked = some (.ok vis) →
      ∀ x ∈ vis, namesRooted tm x := by
  intro fuel
  induction fuel with
  | zero => intro cur visited checked vis _ _ _ h; cases h
  | succ fuel ih =>
    intro cur visited checked vis hcur hchkR hvisR h
    rw [walkCyc_succ] at h
    have finish : (∃ f, rooted tm f cur = true) →
        vis = cur.id.name :: visited → ∀ x ∈ vis, namesRooted tm x := by
      rintro ⟨f, hf⟩ hviseq x hx u hu
      rw [hviseq] at hx
      rcases List.mem_cons.mp hx with he | hm
      · have : u = cur := by
          rw [he] at hu
          rw [findTable_of_mem hnodup hcur] at hu
          exact ((Option.some.injEq _ _).mp hu).symm
        rw [this]
        exact ⟨f, hf⟩
      · obtain ⟨k, hk⟩ := hvisR x hm u hu
        exact ⟨k + f, rooted_of_iterParent hk hf⟩
    cases hext : cur.extendedBy with
    | none =>
      rw [hext] at h
      simp only [Option.some.injEq, Except.ok.injEq] at h
      refine finish ⟨0, ?_⟩ h.symm
      rw [rooted, parentT, hext]
      rfl
    | some pid =>
      simp only [hext] at h
      by_cases hchk : pid.name ∈ checked
      · rw [if_pos hchk] at h
        simp only [Option.some.injEq, Except.ok.injEq] at h
        refine finish ?_ h.symm
        cases hf : findTable tm pid.name with
        | none =>
          refine ⟨0, ?_⟩
          rw [rooted, parentT, hext]
          show (Option.bind (some pid) fun pid => findTable tm pid.name).isNone = true
          rw [Option.some_bind, hf]
          rfl
        | some pt =>
          obtain ⟨f, hfR⟩ := hchkR pid.name hchk pt hf
          refine ⟨f + 1, rooted_parent_step ?_ hfR⟩
          rw [parentT, hext]
          exact hf
      · rw [if_neg hchk] at h
        cases hf : findTable tm pid.name with
        | none => rw [hf] at h; cases h
        | some pt =>
          simp only [hf] at h
          by_cases hvis : pid.name ∈ cur.id.name :: visited
          · rw [if_pos hvis] at h; cases h
          · rw [if_neg hvis] at h
            have hparent : parentT tm cur = some pt := by
              rw [parentT, hext]
              exact hf
            refine ih pt (cur.id.name :: visited) checked vis
              (findTable_some_mem hf).1 hchkR ?_ h
            intro x hx u hu
            rcases List.mem_cons.mp hx with he | hm
            · have : u = cur := by
                rw [he] at hu
                rw [findTable_of_mem hnodup hcur] at hu
                exact ((Option.some.injEq _ _).mp hu).symm
              rw [this]
              exact ⟨1, iterParent_one hparent⟩
            · obtain ⟨k, hk⟩ := hvisR x hm u hu
              refine ⟨k + 1, ?_⟩
              rw [iterParent_add tm k 1 u cur hk]
              exact iterParent_one hparent

/-- Every error the cycle walk can produce is a cyclic-reference
diagnostic. -/
theorem walkCyc_err_shape (tm : List TableDef) :
    ∀ (fuel : Nat) (cur : TableDef) (visited checked : List String) (e : Diags),
      walkCyc tm fuel cur visited checked = some (.error e) →
      ∃ pt pname, e = cyclicDiag pt pname := by
  intro fuel
  induction fuel with
  | zero => intro cur visited checked e h; cases h
  | succ fuel ih =>
    intro cur visited checked e h
    rw [walkCyc_succ] at h
    cases hext : cur.extendedBy with
    | none => rw [hext] at h; cases h
    | some pid =>
      simp only [hext] at h
      by_cases hchk : pid.name ∈ checked
      · rw [if_pos hchk] at h; cases h
      · rw [if_neg hchk] at h
        cases hf : findTable tm pid.name with
        | none => rw [hf] at h; cases h
        | some pt =>
          simp only [hf] at h
          by_cases hvis : pid.name ∈ cur.id.name :: visited
          · rw [if_pos hvis] at h
            simp only [Option.some.injEq, Except.error.injEq] at h
            exact ⟨pt, pid.name, h.symm⟩
          · rw [if_neg hvis] at h
            exact ih pt _ checked e h

/-- The outer cycle loop never runs out of fuel when every named parent
exists. -/
theorem checkCyclicGo_isSome (tm : List TableDef)
    (hpar : ∀ t ∈ tm, ∀ pid, t.extendedBy = some pid →
      (findTable tm pid.name).isSome = true) :
    ∀ (todo : List TableDef) (checked : List String),
      (∀ t ∈ todo, t ∈ tm) →
      (checkCyclicGo tm todo checked).isSome = true := by
  intro todo
  induction todo with
  | nil => intro checked _; rfl
  | cons t rest ih =>
    intro checked hsub
    rw [checkCyclicGo]
    by_cases hchk : checked.contains t.id.name
    · rw [if_pos hchk]
      exact ih checked (fun u hu => hsub u (List.mem_cons_of_mem _ hu))
    · rw [if_neg hchk]
      have hw := walkCyc_isSome tm hpar (tm.length + 1) t [] checked
        (hsub t (List.mem_cons_self _ _)) (by simp) (by simp) (by simp) (by simp)
      cases hwv : walkCyc tm (tm.length + 1) t [] checked with
      | none => rw [hwv] at hw; cases hw
      | some r =>
        cases r with
        | error e => simp [hwv]
        | ok vis =>
          simp only [hwv]
          exact ih (checked ++ vis) (fun u hu => hsub u (List.mem_cons_of_mem _ hu))

/-- A successful outer cycle loop proves every processed table rooted. -/
theorem checkCyclicGo_ok_sound (tm : List TableDef)
    (hnodup : (tableNames tm).Nodup) :
    ∀ (todo : List TableDef) (checked : List String),
      (∀ t ∈ todo, t ∈ tm) →
      (∀ x ∈ checked, namesRooted tm x) →
      checkCyclicGo tm todo checked = some (.ok ()) →
      ∀ t ∈ todo, ∃ f, rooted tm f t = true := by
  intro todo
  induction todo with
  | nil => intro checked _ _ _ t ht; cases ht
  | cons t rest ih =>
    intro checked hsub hchkR h u hu
    rw [checkCyclicGo] at h
    have htm : t ∈ tm := hsub t (List.mem_cons_self _ _)
    by_cases hchk : checked.contains t.id.name
    · rw [if_pos hchk] at h
      rcases List.mem_cons.mp hu with he | hm
      · subst he
        exact hchkR u.id.name (List.elem_iff.mp hchk) u (findTable_of_mem hnodup htm)
      · exact ih checked (fun v hv => hsub v (List.mem_cons_of_mem _ hv)) hchkR h u hm
    · rw [if_neg hchk] at h
      cases hwv : walkCyc tm (tm.length + 1) t [] checked with
      | none => rw [hwv] at h; cases h
      | some r =>
        cases r with
        | error e => rw [hwv] at h; cases h
        | ok vis =>
          rw [hwv] at h
          have hvisR : ∀ x ∈ vis, namesRooted tm x :=
            walkCyc_ok_sound tm hnodup (tm.length + 1) t [] checked vis htm hchkR
              (by intro x hx; cases hx) hwv
          have hchkR2 : ∀ x ∈ checked ++ vis, namesRooted tm x := by
            intro x hx
            rcases List.mem_append.mp hx with hm | hm
            · exact hchkR x hm
            · exact hvisR x hm
          rcases List.mem_cons.mp hu with he | hm
          · subst he
            have hmem := (walkCyc_ok_supset tm _ _ _ _ _ hwv).1
            exact hvisR u.id.name hmem u (findTable_of_mem hnodup htm)
          · exact ih (checked ++ vis) (fun v hv => hsub v (List.mem_cons_of_mem _ hv))
              hchkR2 h u hm

/-- Every error of the outer cycle loop is a cyclic-reference
diagnostic. -/
theorem checkCyclicGo_err_shape (tm : List TableDef) :
    ∀ (todo : List TableDef) (checked : List String) (e : Diags),
      checkCyclicGo tm todo checked = some (.error e) →
      ∃ pt pname, e = cyclicDiag pt pname := by
  intro todo
  induction todo with
  | nil => intro checked e h; cases h
  | cons t rest ih =>
    intro checked e h
    rw [checkCyclicGo] at h
    by_cases hchk : checked.contains t.id.name
    · rw [if_pos hchk] at h
      exact ih checked e h
    · rw [if_neg hchk] at h
      cases hwv : walkCyc tm (tm.length + 1) t [] checked with
      | none => rw [hwv] at h; cases h
      | some r =>
        cases r with
        | error e2 =>
          rw [hwv] at h
          simp only [Option.some.injEq, Except.error.injEq] at h
          subst h
          exact walkCyc_err_shape tm _ _ _ _ _ hwv
        | ok vis =>
          rw [hwv] at h
          exact ih (checked ++ vis) e h

/-- A successful cycle pass proves every table rooted within the table
count. -/
theorem checkCyclicExtension_ok_rooted (tm ord : List TableDef)
    (hnodup : (tableNames tm).Nodup) (hperm : ord.Perm tm)
    (h : checkCyclicExtension tm ord = some (.ok ())) :
    ∀ t ∈ tm, rooted tm tm.length t = true := by
  intro t ht
  have hsort : (sortByName ord).Perm tm := (sortByName_perm ord).trans hperm
  have hmem : t ∈ sortByName ord := hsort.mem_iff.mpr ht
  obtain ⟨f, hf⟩ := checkCyclicGo_ok_sound tm hnodup (sortByName ord) []
    (fun u hu => hsort.mem_iff.mp hu) (by intro x hx; cases hx) h t hmem
  exact rooted_bound hnodup ht hf

/-- The cycle pass never runs out of fuel nor panics when every named
parent exists. -/
theorem checkCyclicExtension_isSome (tm ord : List TableDef)
    (hpar : ∀ t ∈ tm, ∀ pid, t.extendedBy = some pid →
      (findTable tm pid.name).isSome = true)
    (hperm : ord.Perm tm) :
    (checkCyclicExtension tm ord).isSome = true :=
  checkCyclicGo_isSome tm hpar (sortByName ord) []
    (fun _ hu => ((sortByName_perm ord).trans hperm).mem_iff.mp hu)

/-- Every error of the cycle pass is a cyclic-reference diagnostic. -/
theorem checkCyclicExtension_err_shape (tm ord : List TableDef) (e : Diags)
    (h : checkCyclicExtension tm ord = some (.error e)) :
    ∃ pt pname, e = cyclicDiag pt pname :=
  checkCyclicGo_err_shape tm (sortByName ord) [] e h

/-! ## The column accumulator -/

theorem accKeys_append (a b : ColAcc) :
    accKeys (a ++ b) = accKeys a ++ accKeys b := by
  simp [accKeys]

theorem acc_any_iff_mem (acc : ColAcc) (n : String) :
    (acc.any (fun p => p.1 == n)) = true ↔ n ∈ accKeys acc := by
  rw [List.any_eq_true]
  constructor
  · rintro ⟨p, hp, he⟩
    have : p.1 = n := by simpa using he
    rw [← this]
    exact List.mem_map_of_mem _ hp
  · intro h
    rcases List.mem_map.mp h with ⟨p, hp, he⟩
    exact ⟨p, hp, by simpa using he⟩

theorem checkedInsert_ok_keys :
    ∀ (cols : List ColumnDef) (acc acc' : ColAcc),
      checkedInsert acc cols = .ok acc' →
      accKeys acc' = accKeys acc ++ cols.map (fun c => c.id.name)
  | [], acc, acc', h => by
    rw [checkedInsert] at h
    cases h
    simp
  | c :: rest, acc, acc', h => by
    rw [checkedInsert] at h
    by_cases hmem : (acc.any (fun p => p.1 == c.id.name)) = true
    · rw [if_pos hmem] at h; cases h
    · rw [if_neg hmem] at h
      have := checkedInsert_ok_keys rest (acc ++ [(c.id.name, c)]) acc' h
      rw [this, accKeys_append]
      simp [accKeys]

theorem checkedInsert_ok_nodup :
    ∀ (cols : List ColumnDef) (acc acc' : ColAcc),
      checkedInsert acc cols = .ok acc' →
      (accKeys acc).Nodup → (accKeys acc').Nodup
  | [], acc, acc', h, hnd => by
    rw [checkedInsert] at h
    cases h
    exact hnd
  | c :: rest, acc, acc', h, hnd => by
    rw [checkedInsert] at h
    by_cases hmem : (acc.any (fun p => p.1 == c.id.name)) = true
    · rw [if_pos hmem] at h; cases h
    · rw [if_neg hmem] at h
      refine checkedInsert_ok_nodup rest _ acc' h ?_
      rw [accKeys_append]
      simp only [accKeys, List.map_cons, List.map_nil]
      rw [List.nodup_append]
      refine ⟨hnd, by simp, ?_⟩
      intro x hx hx2
      simp only [List.mem_singleton] at hx2
      rw [hx2] at hx
      exact (fun hm => hmem ((acc_any_iff_mem acc c.id.name).mpr hm)) hx

theorem checkedInsert_ok_wf :
    ∀ (cols : List ColumnDef) (acc acc' : ColAcc),
      checkedInsert acc cols = .ok acc' → accWf acc → accWf acc'
  | [], acc, acc', h, hwf => by
    rw [checkedInsert] at h
    cases h
    exact hwf
  | c :: rest, acc, acc', h, hwf => by
    rw [checkedInsert] at h
    by_cases hmem : (acc.any (fun p => p.1 == c.id.name)) = true
    · rw [if_pos hmem] at h; cases h
    · rw [if_neg hmem] at h
      refine checkedInsert_ok_wf rest _ acc' h ?_
      intro p hp
      rcases List.mem_append.mp hp with hm | hm
      · exact hwf p hm
      · simp only [List.mem_singleton] at hm
        rw [hm]

theorem insertOwn_keys_mem (acc : ColAcc) (c : ColumnDef) (x : String) :
    x ∈ accKeys (insertOwn acc c) ↔ x ∈ accKeys acc ∨ x = c.id.name := by
  rw [insertOwn]
  by_cases hmem : (acc.any (fun p => p.1 == c.id.name)) = true
  · rw [if_pos hmem]
    have hkeys : accKeys (acc.map fun p => if p.1 == c.id.name then (p.1, c) else p)
        = accKeys acc := by
      simp only [accKeys, List.map_map]
      refine List.map_congr_left ?_
      intro p _
      simp only [Function.comp]
      split <;> rfl
    rw [hkeys]
    constructor
    · exact fun h => Or.inl h
    · rintro (h | h)
      · exact h
      · rw [h]
        exact (acc_any_iff_mem acc c.id.name).mp hmem
  · rw [if_neg hmem, accKeys_append]
    simp [accKeys]

theorem insertOwn_nodup (acc : ColAcc) (c : ColumnDef)
    (hnd : (accKeys acc).Nodup) : (accKeys (insertOwn acc c)).Nodup := by
  rw [insertOwn]
  by_cases hmem : (acc.any (fun p => p.1 == c.id.name)) = true
  · rw [if_pos hmem]
    have hkeys : accKeys (acc.map fun p => if p.1 == c.id.name then (p.1, c) else p)
        = accKeys acc := by
      simp only [accKeys, List.map_map]
      refine List.map_congr_left ?_
      intro p _
      simp only [Function.comp]
      split <;> rfl
    rw [hkeys]
    exact hnd
  · rw [if_neg hmem, accKeys_append]
    simp only [accKeys, List.map_cons, List.map_nil]
    rw [List.nodup_append]
    refine ⟨hnd, by simp, ?_⟩
    intro x hx hx2
    simp only [List.mem_singleton] at hx2
    rw [hx2] at hx
    exact (fun hm => hmem ((acc_any_iff_mem acc c.id.name).mpr hm)) hx

theorem insertOwn_wf (acc : ColAcc) (c : ColumnDef) (hwf : accWf acc) :
    accWf (insertOwn acc c) := by
  rw [insertOwn]
  by_cases hmem : (acc.any (fun p => p.1 == c.id.name)) = true
  · rw [if_pos hmem]
    intro p hp
    rcases List.mem_map.mp hp with ⟨q, hq, he⟩
    by_cases hqc : (q.1 == c.id.name) = true
    · rw [if_pos hqc] at he
      rw [← he]
      exact (beq_iff_eq.mp hqc).symm
    · rw [if_neg hqc] at he
      rw [← he]
      exact hwf q hq
  · rw [if_neg hmem]
    intro p hp
    rcases List.mem_append.mp hp with hm | hm
    · exact hwf p hm
    · simp only [List.mem_singleton] at hm
      rw [hm]

theorem ownColumns_spec (cols : List ColumnDef) :
    (∀ x, x ∈ accKeys (ownColumns cols) ↔ x ∈ cols.map (fun c => c.id.name)) ∧
    (accKeys (ownColumns cols)).Nodup ∧ accWf (ownColumns cols) := by
  have main : ∀ (cs : List ColumnDef) (acc : ColAcc),
      (accKeys acc).Nodup → accWf acc →
      (∀ x, x ∈ accKeys (cs.foldl insertOwn acc) ↔
        x ∈ accKeys acc ∨ x ∈ cs.map (fun c => c.id.name)) ∧
      (accKeys (cs.foldl insertOwn acc)).Nodup ∧
      accWf (cs.foldl insertOwn acc) := by
    intro cs
    induction cs with
    | nil =>
      intro acc hnd hwf
      exact ⟨fun x => by simp, hnd, hwf⟩
    | cons c rest ih =>
      intro acc hnd hwf
      obtain ⟨h1, h2, h3⟩ := ih (insertOwn acc c) (insertOwn_nodup acc c hnd)
        (insertOwn_wf acc c hwf)
      refine ⟨?_, h2, h3⟩
      intro x
      rw [List.foldl_cons] at *
      rw [h1 x, insertOwn_keys_mem]
      simp only [List.map_cons, List.mem_cons]
      tauto
  obtain ⟨h1, h2, h3⟩ := main cols [] (by simp [accKeys]) (by intro p hp; cases hp)
  exact ⟨fun x => by rw [ownColumns, h1 x]; simp [accKeys], h2, h3⟩

/-! ## Chains and effective name sets -/

theorem chainF_stable {tm : List TableDef} :
    ∀ {f : Nat} {t : TableDef}, rooted tm f t = true →
      ∀ {g : Nat}, f ≤ g → chainF tm g t = chainF tm f t := by
  intro f
  induction f with
  | zero =>
    intro t h g _
    have hp : parentT tm t = none := Option.isNone_iff_eq_none.mp h
    cases g with
    | zero => rfl
    | succ g =>
      rw [chainF, chainF, hp]
  | succ f ih =>
    intro t h g hle
    cases g with
    | zero => omega
    | succ g =>
      rw [chainF, chainF]
      simp only [rooted] at h
      cases hp : parentT tm t with
      | none => rfl
      | some p =>
        rw [hp] at h
        have h2 : rooted tm f p = true := h
        show t :: chainF tm g p = t :: chainF tm f p
        rw [ih h2 (by omega : f ≤ g)]

theorem chain_cons {tm : List TableDef} {t p : TableDef}
    (ht : t ∈ tm) (hroot : rooted tm tm.length t = true)
    (hp : parentT tm t = some p) :
    chain tm t = t :: chain tm p := by
  have hlen : 1 ≤ tm.length := by
    cases tm with
    | nil => cases ht
    | cons a l => simp
  obtain ⟨n, hn⟩ : ∃ n, tm.length = n + 1 := ⟨tm.length - 1, by omega⟩
  have hrootp : rooted tm n p = true := by
    rw [hn] at hroot
    simp only [rooted, hp] at hroot
    exact hroot
  rw [chain, chain, hn, chainF, hp]
  rw [chainF_stable hrootp (by omega : n ≤ n + 1)]

theorem chain_single {tm : List TableDef} {t : TableDef}
    (hp : parentT tm t = none) : chain tm t = [t] := by
  rw [chain]
  cases hl : tm.length with
  | zero => rfl
  | succ n => rw [chainF, hp]

theorem effNames_cons {tm : List TableDef} {t p : TableDef}
    (ht : t ∈ tm) (hroot : rooted tm tm.length t = true)
    (hp : parentT tm t = some p) :
    effNames tm t = colNames t ++ effNames tm p := by
  rw [effNames, effNames, chain_cons ht hroot hp, List.flatMap_cons]

theorem effNames_single {tm : List TableDef} {t : TableDef}
    (hp : parentT tm t = none) : effNames tm t = colNames t := by
  rw [effNames, chain_single hp]
  simp

theorem chain_colNames_subset {tm : List TableDef} {t b : TableDef}
    (hb : b ∈ chain tm t) : ∀ x ∈ colNames b, x ∈ effNames tm t := by
  intro x hx
  rw [effNames]
  exact List.mem_flatMap.mpr ⟨b, hb, hx⟩

/-- If a table has no missing parent, `parentT` reads its `extended_by`
through the table map. -/
theorem parentT_of_extends {tm : List TableDef} {t : TableDef} {pid : Ident}
    (hext : t.extendedBy = some pid) :
    parentT tm t = findTable tm pid.name := by
  rw [parentT, hext]
  rfl

theorem parentT_none_of_extends_none {tm : List TableDef} {t : TableDef}
    (hext : t.extendedBy = none) : parentT tm t = none := by
  rw [parentT, hext]
  rfl

/-! ## Correctness of the flattening pass -/

theorem lookupCtx_some_mem {ctx : Ctx} {n : String} {cols : List ColumnDef}
    (h : lookupCtx ctx n = some cols) : (n, cols) ∈ ctx := by
  rw [lookupCtx] at h
  cases hf : ctx.find? (fun p => p.1 == n) with
  | none => rw [hf] at h; cases h
  | some p =>
    rw [hf] at h
    have h2 : p.2 = cols := by
      have : some p.2 = some cols := h
      exact (Option.some.injEq _ _).mp this
    have hp1 : p.1 = n := by simpa using List.find?_some hf
    have hmem := List.mem_of_find?_eq_some hf
    have hpe : p = (n, cols) := by
      obtain ⟨a, b⟩ := p
      simp only at hp1 h2
      rw [hp1, h2]
    rw [← hpe]
    exact hmem

theorem lookupCtx_isSome_of_mem {ctx : Ctx} {n : String}
    (h : n ∈ ctxKeys ctx) : ∃ cols, lookupCtx ctx n = some cols := by
  induction ctx with
  | nil => cases h
  | cons p rest ih =>
    by_cases hp : p.1 = n
    · refine ⟨p.2, ?_⟩
      rw [lookupCtx, List.find?_cons_of_pos _ (by simp [hp])]
      rfl
    · have : n ∈ ctxKeys rest := by
        rcases List.mem_cons.mp h with he | hm
        · exact absurd he.symm hp
        · exact hm
      obtain ⟨cols, hc⟩ := ih this
      refine ⟨cols, ?_⟩
      rw [lookupCtx] at hc ⊢
      rw [List.find?_cons_of_neg _ (by simp [hp])]
      exact hc

/-- The flattening walk: with the prerequisite passes done it always
returns, and on success the accumulator holds exactly the starting keys
plus the parent's effective names, the parent's chain being
level-disjoint. -/
theorem walkFlat_spec (tm : List TableDef) (ctx : Ctx)
    (hnodup : (tableNames tm).Nodup)
    (hpar : ∀ t ∈ tm, ∀ pid, t.extendedBy = some pid →
      (findTable tm pid.name).isSome = true)
    (hroot : ∀ t ∈ tm, rooted tm tm.length t = true)
    (hctx : ctxGood tm ctx) :
    ∀ (f fuel : Nat) (cur : TableDef) (acc : ColAcc),
      cur ∈ tm → rooted tm f cur = true → f + 1 ≤ fuel →
      (accKeys acc).Nodup → accWf acc →
      ∃ r, walkFlat tm ctx fuel cur acc = some r ∧
        ∀ acc', r = .ok acc' →
          (accKeys acc').Nodup ∧ accWf acc' ∧
          (∀ x, x ∈ accKeys acc' ↔ x ∈ accKeys acc ∨
            ∃ p, parentT tm cur = some p ∧ x ∈ effNames tm p) ∧
          (∀ p, parentT tm cur = some p →
            (∀ x ∈ effNames tm p, x ∉ accKeys acc) ∧ chainDisjoint tm p) := by
  intro f
  induction f with
  | zero =>
    intro fuel cur acc hcur hrootf hfuel hnd hwf
    cases fuel with
    | zero => omega
    | succ fl =>
      cases hext : cur.extendedBy with
      | none =>
        have hred : walkFlat tm ctx (fl + 1) cur acc = some (.ok acc) := by
          rw [walkFlat, hext]
        refine ⟨.ok acc, hred, ?_⟩
        intro acc' he
        cases he
        refine ⟨hnd, hwf, ?_, ?_⟩
        · intro x
          constructor
          · exact fun h => Or.inl h
          · rintro (h | ⟨p, hp, _⟩)
            · exact h
            · rw [parentT_none_of_extends_none hext] at hp
              cases hp
        · intro p hp
          rw [parentT_none_of_extends_none hext] at hp
          cases hp
      | some pid =>
        exfalso
        have hsome := hpar cur hcur pid hext
        rw [rooted] at hrootf
        rw [parentT_of_extends hext] at hrootf
        cases hf2 : findTable tm pid.name with
        | none => rw [hf2] at hsome; cases hsome
        | some p => rw [hf2] at hrootf; simp [Option.isNone] at hrootf
  | succ f ih =>
    intro fuel cur acc hcur hrootf hfuel hnd hwf
    cases fuel with
    | zero => omega
    | succ fl =>
      cases hext : cur.extendedBy with
      | none =>
        have hred : walkFlat tm ctx (fl + 1) cur acc = some (.ok acc) := by
          rw [walkFlat, hext]
        refine ⟨.ok acc, hred, ?_⟩
        intro acc' he
        cases he
        refine ⟨hnd, hwf, ?_, ?_⟩
        · intro x
          constructor
          · exact fun h => Or.inl h
          · rintro (h | ⟨p, hp, _⟩)
            · exact h
            · rw [parentT_none_of_extends_none hext] at hp
              cases hp
        · intro p hp
          rw [parentT_none_of_extends_none hext] at hp
          cases hp
      | some pid =>
        have hred : walkFlat tm ctx (fl + 1) cur acc =
            (match lookupCtx ctx pid.name with
             | some pcols => some (checkedInsert acc pcols)
             | none =>
               match findTable tm pid.name with
               | none => none
               | some pt =>
                 match checkedInsert acc pt.columns with
                 | .error e => some (.error e)
                 | .ok a2 => walkFlat tm ctx fl pt a2) := by
          rw [walkFlat, hext]
        have hsome := hpar cur hcur pid hext
        cases hf2 : findTable tm pid.name with
        | none => rw [hf2] at hsome; cases hsome
        | some p =>
        have hparent : parentT tm cur = some p := by
          rw [parentT_of_extends hext]; exact hf2
        have hpmem : p ∈ tm := (findTable_some_mem hf2).1
        have hpname : p.id.name = pid.name := (findTable_some_mem hf2).2
        have hrootp : rooted tm f p = true := by
          rw [rooted, hparent] at hrootf
          exact hrootf
        cases hl : lookupCtx ctx pid.name with
        | some pcols =>
          -- cached ancestor: splice its flattened columns and stop
          rw [hl] at hred
          refine ⟨checkedInsert acc pcols, hred, ?_⟩
          intro acc' he
          obtain ⟨t0, ht0mem, ht0name, hvnodup, hviff, hvdisj⟩ :=
            hctx (pid.name, pcols) (lookupCtx_some_mem hl)
          have ht0p : t0 = p := mem_name_inj hnodup ht0mem hpmem (ht0name.trans hpname.symm)
          rw [ht0p] at hviff hvdisj
          have hkeys := checkedInsert_ok_keys pcols acc acc' he
          have hnd' := checkedInsert_ok_nodup pcols acc acc' he hnd
          refine ⟨hnd', checkedInsert_ok_wf pcols acc acc' he hwf, ?_, ?_⟩
          · intro x
            rw [hkeys, List.mem_append]
            constructor
            · rintro (h | h)
              · exact Or.inl h
              · exact Or.inr ⟨p, hparent, (hviff x).mp h⟩
            · rintro (h | ⟨q, hq, hx⟩)
              · exact Or.inl h
              · rw [hparent] at hq
                cases hq
                exact Or.inr ((hviff x).mpr hx)
          · intro q hq
            rw [hparent] at hq
            cases hq
            refine ⟨?_, hvdisj⟩
            intro x hx
            have hx2 : x ∈ pcols.map (fun c => c.id.name) := (hviff x).mpr hx
            rw [hkeys] at hnd'
            have hdisj := (List.nodup_append.mp hnd').2.2
            exact fun hmem => hdisj hmem hx2
        | none =>
          -- fresh ancestor: merge its own columns and keep walking
          rw [hl, hf2] at hred
          have hred2 : walkFlat tm ctx (fl + 1) cur acc =
              (match checkedInsert acc p.columns with
               | .error e => some (.error e)
               | .ok a2 => walkFlat tm ctx fl p a2) := hred
          cases hci : checkedInsert acc p.columns with
          | error e =>
            rw [hci] at hred2
            refine ⟨.error e, hred2, ?_⟩
            intro acc' he
            cases he
          | ok acc2 =>
            rw [hci] at hred2
            have hred3 : walkFlat tm ctx (fl + 1) cur acc =
                walkFlat tm ctx fl p acc2 := hred2
            have hkeys2 := checkedInsert_ok_keys p.columns acc acc2 hci
            have hnd2 := checkedInsert_ok_nodup p.columns acc acc2 hci hnd
            have hwf2 := checkedInsert_ok_wf p.columns acc acc2 hci hwf
            obtain ⟨r, hr, himpl⟩ := ih fl p acc2 hpmem hrootp (by omega) hnd2 hwf2
            rw [hr] at hred3
            refine ⟨r, hred3, ?_⟩
            intro acc' he
            obtain ⟨hnd', hwf', hiff', hfourth'⟩ := himpl acc' he
            have hcols : p.columns.map (fun c => c.id.name) = colNames p := rfl
            rw [hcols] at hkeys2
            -- decompose the effective names of p by its own parent
            have heffp : ∀ x, x ∈ effNames tm p ↔ x ∈ colNames p ∨
                ∃ q, parentT tm p = some q ∧ x ∈ effNames tm q := by
              intro x
              cases hq : parentT tm p with
              | none =>
                rw [effNames_single hq]
                constructor
                · exact fun h => Or.inl h
                · rintro (h | ⟨q, hq2, _⟩)
                  · exact h
                  · cases hq2
              | some q =>
                rw [effNames_cons hpmem (hroot p hpmem) hq, List.mem_append]
                constructor
                · rintro (h | h)
                  · exact Or.inl h
                  · exact Or.inr ⟨q, rfl, h⟩
                · rintro (h | ⟨q2, hq2, hx⟩)
                  · exact Or.inl h
                  · cases hq2
                    exact Or.inr hx
            refine ⟨hnd', hwf', ?_, ?_⟩
            · intro x
              rw [hiff' x]
              constructor
              · rintro (h | ⟨q, hq, hx⟩)
                · rw [hkeys2, List.mem_append] at h
                  rcases h with h | h
                  · exact Or.inl h
                  · exact Or.inr ⟨p, hparent, (heffp x).mpr (Or.inl h)⟩
                · exact Or.inr ⟨p, hparent, (heffp x).mpr (Or.inr ⟨q, hq, hx⟩)⟩
              · rintro (h | ⟨q, hq, hx⟩)
                · exact Or.inl (by rw [hkeys2]; exact List.mem_append_left _ h)
                · rw [hparent] at hq
                  cases hq
                  rcases (heffp x).mp hx with h | ⟨q2, hq2, hx2⟩
                  · exact Or.inl (by rw [hkeys2]; exact List.mem_append_right _ h)
                  · exact Or.inr ⟨q2, hq2, hx2⟩
            · intro q hq
              rw [hparent] at hq
              cases hq
              constructor
              · intro x hx hmem
                rcases (heffp x).mp hx with h | ⟨q2, hq2, hx2⟩
                · rw [hkeys2] at hnd2
                  exact (List.nodup_append.mp hnd2).2.2 hmem h
                · exact (hfourth' q2 hq2).1 x hx2
                    (by rw [hkeys2]; exact List.mem_append_left _ hmem)
              · rw [chainDisjoint]
                cases hq2 : parentT tm p with
                | none =>
                  rw [chain_single hq2]
                  exact List.pairwise_singleton _ _
                | some q2 =>
                  rw [chain_cons hpmem (hroot p hpmem) hq2]
                  refine List.Pairwise.cons ?_ (hfourth' q2 hq2).2
                  intro b hb x hx
                  have hxacc2 : x ∈ accKeys acc2 := by
                    rw [hkeys2]
                    exact List.mem_append_right _ hx
                  intro hxb
                  have hxeffq2 : x ∈ effNames tm q2 := chain_colNames_subset hb x hxb
                  exact (hfourth' q2 hq2).1 x hxeffq2 hxacc2

/-- The context-building loop: it always returns, and on success the
context is good and covers exactly the processed tables. -/
theorem buildCtxGo_spec (tm : List TableDef)
    (hnodup : (tableNames tm).Nodup)
    (hpar : ∀ t ∈ tm, ∀ pid, t.extendedBy = some pid →
      (findTable tm pid.name).isSome = true)
    (hroot : ∀ t ∈ tm, rooted tm tm.length t = true) :
    ∀ (todo : List TableDef) (ctx : Ctx),
      (∀ t ∈ todo, t ∈ tm) → ctxGood tm ctx →
      ∃ r, buildCtxGo tm todo ctx = some r ∧
        ∀ ctx', r = .ok ctx' →
          ctxGood tm ctx' ∧ ctxKeys ctx' = ctxKeys ctx ++ tableNames todo := by
  intro todo
  induction todo with
  | nil =>
    intro ctx _ hctx
    refine ⟨.ok ctx, rfl, ?_⟩
    intro ctx' he
    cases he
    exact ⟨hctx, by simp [tableNames]⟩
  | cons t rest ih =>
    intro ctx hsub hctx
    have htmem : t ∈ tm := hsub t (List.mem_cons_self _ _)
    obtain ⟨hok, hond, howf⟩ := ownColumns_spec t.columns
    obtain ⟨r, hw, himpl⟩ := walkFlat_spec tm ctx hnodup hpar hroot hctx
      tm.length (tm.length + 1) t (ownColumns t.columns) htmem (hroot t htmem)
      (by omega) hond howf
    have hred : buildCtxGo tm (t :: rest) ctx =
        (match walkFlat tm ctx (tm.length + 1) t (ownColumns t.columns) with
         | none => none
         | some (.error e) => some (.error e)
         | some (.ok acc) =>
             buildCtxGo tm rest (ctx ++ [(t.id.name, acc.map (fun p => p.2))])) := by
      rw [buildCtxGo]
    rw [hw] at hred
    cases r with
    | error e =>
      refine ⟨.error e, hred, ?_⟩
      intro ctx' he
      cases he
    | ok acc' =>
      obtain ⟨hnd', hwf', hiff', hfourth'⟩ := himpl acc' rfl
      have hred2 : buildCtxGo tm (t :: rest) ctx =
          buildCtxGo tm rest (ctx ++ [(t.id.name, acc'.map (fun p => p.2))]) := hred
      -- the new entry is good
      have hvalnames : (acc'.map (fun p => p.2)).map (fun c => c.id.name)
          = accKeys acc' := by
        rw [List.map_map]
        exact List.map_congr_left (fun p hp => hwf' p hp)
      have heff : ∀ x, x ∈ accKeys acc' ↔ x ∈ effNames tm t := by
        intro x
        rw [hiff' x]
        cases hq : parentT tm t with
        | none =>
          rw [effNames_single hq]
          constructor
          · rintro (h | ⟨p, hp, _⟩)
            · exact (hok x).mp h
            · cases hp
          · intro h
            exact Or.inl ((hok x).mpr h)
        | some q =>
          rw [effNames_cons htmem (hroot t htmem) hq, List.mem_append]
          constructor
          · rintro (h | ⟨p, hp, hx⟩)
            · exact Or.inl ((hok x).mp h)
            · cases hp
              exact Or.inr hx
          · rintro (h | h)
            · exact Or.inl ((hok x).mpr h)
            · exact Or.inr ⟨q, rfl, h⟩
      have hdisj : chainDisjoint tm t := by
        rw [chainDisjoint]
        cases hq : parentT tm t with
        | none =>
          rw [chain_single hq]
          exact List.pairwise_singleton _ _
        | some q =>
          rw [chain_cons htmem (hroot t htmem) hq]
          refine List.Pairwise.cons ?_ (hfourth' q hq).2
          intro b hb x hx hxb
          have hxeff : x ∈ effNames tm q := chain_colNames_subset hb x hxb
          exact (hfourth' q hq).1 x hxeff ((hok x).mpr hx)
      have hctx2 : ctxGood tm (ctx ++ [(t.id.name, acc'.map (fun p => p.2))]) := by
        intro p hp
        rcases List.mem_append.mp hp with hm | hm
        · exact hctx p hm
        · simp only [List.mem_singleton] at hm
          subst hm
          refine ⟨t, htmem, rfl, ?_, ?_, hdisj⟩
          · rw [hvalnames]; exact hnd'
          · intro x
            rw [hvalnames]
            exact heff x
      obtain ⟨r2, hr2, himpl2⟩ := ih (ctx ++ [(t.id.name, acc'.map (fun p => p.2))])
        (fun u hu => hsub u (List.mem_cons_of_mem _ hu)) hctx2
      rw [hr2] at hred2
      refine ⟨r2, hred2, ?_⟩
      intro ctx' he
      obtain ⟨hg, hk⟩ := himpl2 ctx' he
      refine ⟨hg, ?_⟩
      rw [hk]
      simp [ctxKeys, tableNames]

/-! ## Assembling the passes -/

theorem buildExtensionContext_ok_inv {ord : List TableDef} {s : Schema} {ctx : Ctx}
    (h : buildExtensionContext ord s = some (.ok ctx)) :
    collectTables [] s.tables = .ok () ∧
    checkExtension s.tables ord = .ok () ∧
    checkCyclicExtension s.tables ord = some (.ok ()) ∧
    buildCtxGo s.tables ord [] = some (.ok ctx) := by
  rw [buildExtensionContext] at h
  cases h1 : collectTables [] s.tables with
  | error e => rw [h1] at h; cases h
  | ok u =>
    cases u
    rw [h1] at h
    have h' : (match checkExtension s.tables ord with
        | .error e => some (.error e)
        | .ok () =>
          match checkCyclicExtension s.tables ord with
          | none => none
          | some (.error e) => some (.error e)
          | some (.ok ()) => buildCtxGo s.tables ord []) = some (.ok ctx) := h
    cases h2 : checkExtension s.tables ord with
    | error e => rw [h2] at h'; cases h'
    | ok u =>
      cases u
      rw [h2] at h'
      have h'' : (match checkCyclicExtension s.tables ord with
          | none => none
          | some (.error e) => some (.error e)
          | some (.ok ()) => buildCtxGo s.tables ord []) = some (.ok ctx) := h'
      cases h3 : checkCyclicExtension s.tables ord with
      | none => rw [h3] at h''; cases h''
      | some r =>
        cases r with
        | error e => rw [h3] at h''; cases h''
        | ok u =>
          cases u
          rw [h3] at h''
          exact ⟨rfl, rfl, rfl, h''⟩

theorem check_ok_inv {ord : List TableDef} {s : Schema}
    (h : check ord s = some (.ok ())) :
    ∃ ctx, buildExtensionContext ord s = some (.ok ctx) ∧
      checkIndexes ctx s.tables = some (.ok ()) ∧
      checkReferences ctx s.tables = .ok () := by
  rw [check] at h
  cases hb : buildExtensionContext ord s with
  | none => rw [hb] at h; cases h
  | some r =>
    cases r with
    | error e => rw [hb] at h; cases h
    | ok ctx =>
      rw [hb] at h
      have h' : checkAgainst ctx s.tables = some (.ok ()) := h
      rw [checkAgainst] at h'
      cases hi : checkIndexes ctx s.tables with
      | none => rw [hi] at h'; cases h'
      | some ri =>
        cases ri with
        | error e => rw [hi] at h'; cases h'
        | ok u =>
          cases u
          rw [hi] at h'
          have h'' : (match checkReferences ctx s.tables with
              | Except.error e => some (Except.error e)
              | Except.ok () => some (Except.ok ())) = some (Except.ok ()) := h'
          cases hr : checkReferences ctx s.tables with
          | error e => rw [hr] at h''; cases h''
          | ok u =>
            cases u
            exact ⟨ctx, rfl, hi, hr⟩

theorem checkIndexes_isSome (ctx : Ctx) :
    ∀ tables : List TableDef, (∀ t ∈ tables, t.id.name ∈ ctxKeys ctx) →
      (checkIndexes ctx tables).isSome = true
  | [], _ => rfl
  | t :: rest, hmem => by
    cases hidx : t.indexes with
    | none =>
      have hred : checkIndexes ctx (t :: rest) = checkIndexes ctx rest := by
        rw [checkIndexes, hidx]
      rw [hred]
      exact checkIndexes_isSome ctx rest (fun u hu => hmem u (List.mem_cons_of_mem _ hu))
    | some idxs =>
      obtain ⟨cols, hc⟩ := lookupCtx_isSome_of_mem (hmem t (List.mem_cons_self _ _))
      have hred : checkIndexes ctx (t :: rest) =
          (match checkIdxItems (cols.map (fun c => c.id.name)) t.id.name idxs with
           | Except.error e => some (Except.error e)
           | Except.ok () => checkIndexes ctx rest) := by
        rw [checkIndexes, hidx, hc]
      rw [hred]
      cases checkIdxItems (cols.map (fun c => c.id.name)) t.id.name idxs with
      | error e => rfl
      | ok u =>
        cases u
        exact checkIndexes_isSome ctx rest (fun u hu => hmem u (List.mem_cons_of_mem _ hu))

/-- The table names are unique after a successful `collect_tables`. -/
theorem collectTables_nodup {tables : List TableDef}
    (h : collectTables [] tables = .ok ()) : (tableNames tables).Nodup := by
  simpa using collectTables_ok_nodup tables [] h (by simp [tableNames])

/-- Parents exist after a successful `check_extension` over a
permutation of the map. -/
theorem checkExtension_parents {tables ord : List TableDef}
    (hperm : ord.Perm tables) (h : checkExtension tables ord = .ok ()) :
    ∀ t ∈ tables, ∀ pid, t.extendedBy = some pid →
      (findTable tables pid.name).isSome = true := by
  intro t ht pid hpid
  obtain ⟨pt, hf, _⟩ := checkExtension_ok ord tables h t (hperm.mem_iff.mpr ht) pid hpid
  rw [hf]
  rfl

/-- A successful `build_extension_context` yields a good context keyed
exactly by the iterated tables. -/
theorem buildExtensionContext_spec {ord : List TableDef} {s : Schema} {ctx : Ctx}
    (hperm : ord.Perm s.tables)
    (h : buildExtensionContext ord s = some (.ok ctx)) :
    (tableNames s.tables).Nodup ∧ ctxGood s.tables ctx ∧
    ctxKeys ctx = tableNames ord := by
  obtain ⟨h1, h2, h3, h4⟩ := buildExtensionContext_ok_inv h
  have hnodup := collectTables_nodup h1
  have hpar := checkExtension_parents hperm h2
  have hroot := checkCyclicExtension_ok_rooted s.tables ord hnodup hperm h3
  obtain ⟨r, hr, himpl⟩ := buildCtxGo_spec s.tables hnodup hpar hroot ord []
    (fun t ht => hperm.mem_iff.mp ht) (by intro p hp; cases hp)
  rw [h4] at hr
  have : r = .ok ctx := by
    have := (Option.some.injEq _ _).mp hr
    exact this.symm
  obtain ⟨hg, hk⟩ := himpl ctx this
  refine ⟨hnodup, hg, ?_⟩
  simpa [ctxKeys] using hk

/-! ## C1: flattening computes the effective column sets -/

/-- C1: for every schema that passes table collection, extension
well-formedness and cycle detection, and whose flattening succeeds (a
successful `build_extension_context`), the computed context maps each
table `T` to a column list whose name set is exactly `T`'s effective
column set — `T`'s own columns united with the columns of every
ancestor reached by following `extended_by` transitively — and `check`
then validates indexes and references against exactly that context. -/
theorem effective_columns_correct (ord : List TableDef) (s : Schema) (ctx : Ctx)
    (t : TableDef) (hperm : ord.Perm s.tables)
    (h : buildExtensionContext ord s = some (.ok ctx)) (ht : t ∈ s.tables) :
    (∃ cols, lookupCtx ctx t.id.name = some cols ∧
      ∀ x, x ∈ cols.map (fun c => c.id.name) ↔ x ∈ effNames s.tables t) ∧
    check ord s = checkAgainst ctx s.tables := by
  obtain ⟨hnodup, hgood, hkeys⟩ := buildExtensionContext_spec hperm h
  have hmemkeys : t.id.name ∈ ctxKeys ctx := by
    rw [hkeys]
    exact List.mem_map_of_mem _ (hperm.mem_iff.mpr ht)
  obtain ⟨cols, hc⟩ := lookupCtx_isSome_of_mem hmemkeys
  obtain ⟨t0, ht0mem, ht0name, hnd, hiff, hdisj⟩ := hgood _ (lookupCtx_some_mem hc)
  have ht0t : t0 = t := mem_name_inj hnodup ht0mem ht ht0name
  subst ht0t
  refine ⟨⟨cols, hc, hiff⟩, ?_⟩
  rw [check, h]

/-- Witness for C1 at the spec example `abstract table bar { id }`,
`table foo extends bar { name }`: check succeeds and the effective
column set of `foo` is exactly the two names `name` and `id`. -/
theorem effective_columns_correct_witness :
    buildExtensionContext schC1.tables schC1 = some (.ok ctxC1) ∧
    schC1.tables.get ⟨1, by decide⟩ ∈ schC1.tables ∧
    ((∃ cols, lookupCtx ctxC1 (schC1.tables.get ⟨1, by decide⟩).id.name = some cols ∧
       ∀ x, x ∈ cols.map (fun c => c.id.name) ↔
         x ∈ effNames schC1.tables (schC1.tables.get ⟨1, by decide⟩)) ∧
     check schC1.tables schC1 = checkAgainst ctxC1 schC1.tables) ∧
    effNames schC1.tables (schC1.tables.get ⟨1, by decide⟩) = ["name", "id"] ∧
    check schC1.tables schC1 = some (.ok ()) :=
  ⟨rfl, by decide,
   effective_columns_correct schC1.tables schC1 ctxC1 _ (List.Perm.refl _) rfl
     (by decide),
   by rfl, by rfl⟩

/-! ## C2, amended half: what the accepted schemas do satisfy -/

/-- C2 (amended): for every schema accepted by `check` under some table
map iteration order, no two tables share a name and no column name
occurs at two distinct levels of any table's inheritance chain.
(Duplicates inside one table's own column list are not rejected, see
the counterexample.) -/
theorem check_ok_unique_names (ord : List TableDef) (s : Schema)
    (hperm : ord.Perm s.tables) (h : check ord s = some (.ok ())) :
    (tableNames s.tables).Nodup ∧ ∀ t ∈ s.tables, chainDisjoint s.tables t := by
  obtain ⟨ctx, hb, _, _⟩ := check_ok_inv h
  obtain ⟨hnodup, hgood, hkeys⟩ := buildExtensionContext_spec hperm hb
  refine ⟨hnodup, ?_⟩
  intro t ht
  have hmemkeys : t.id.name ∈ ctxKeys ctx := by
    rw [hkeys]
    exact List.mem_map_of_mem _ (hperm.mem_iff.mpr ht)
  obtain ⟨cols, hc⟩ := lookupCtx_isSome_of_mem hmemkeys
  obtain ⟨t0, ht0mem, ht0name, _, _, hdisj⟩ := hgood _ (lookupCtx_some_mem hc)
  have ht0t : t0 = t := mem_name_inj hnodup ht0mem ht ht0name
  rw [ht0t] at hdisj
  exact hdisj

/-- Witness for the amended C2 at the two-table inheritance example. -/
theorem check_ok_unique_names_witness :
    check schC1.tables schC1 = some (.ok ()) ∧
    ((tableNames schC1.tables).Nodup ∧
      ∀ t ∈ schC1.tables, chainDisjoint schC1.tables t) :=
  ⟨by rfl, check_ok_unique_names schC1.tables schC1 (List.Perm.refl _) (by rfl)⟩

/-! ## C3: cycle detection is sound and complete -/

/-- C3: `check` accepts only schemas in which following `extended_by`
from any table reaches a parentless table within `tables.length` steps;
conversely a schema that passes table collection and extension
well-formedness but contains a table that never reaches a root is
rejected with a "cyclic reference happens at X" diagnostic. -/
theorem cyclic_detection_correct (ord : List TableDef) (s : Schema)
    (hperm : ord.Perm s.tables) :
    (check ord s = some (.ok ()) →
      ∀ t ∈ s.tables, rooted s.tables s.tables.length t = true) ∧
    (collectTables [] s.tables = .ok () →
     checkExtension s.tables ord = .ok () →
     (∃ t ∈ s.tables, rooted s.tables s.tables.length t = false) →
     ∃ pt pname, check ord s = some (.error (cyclicDiag pt pname))) := by
  constructor
  · intro h t ht
    obtain ⟨ctx, hb, _, _⟩ := check_ok_inv h
    obtain ⟨h1, h2, h3, _⟩ := buildExtensionContext_ok_inv hb
    exact checkCyclicExtension_ok_rooted s.tables ord (collectTables_nodup h1)
      hperm h3 t ht
  · intro h1 h2 hcyc
    obtain ⟨t, ht, hfalse⟩ := hcyc
    have hnodup := collectTables_nodup h1
    have hpar := checkExtension_parents hperm h2
    have hcycS := checkCyclicExtension_isSome s.tables ord hpar hperm
    cases h3 : checkCyclicExtension s.tables ord with
    | none => rw [h3] at hcycS; cases hcycS
    | some r =>
      cases r with
      | ok u =>
        cases u
        exfalso
        have := checkCyclicExtension_ok_rooted s.tables ord hnodup hperm h3 t ht
        rw [hfalse] at this
        cases this
      | error e =>
        obtain ⟨pt, pname, he⟩ := checkCyclicExtension_err_shape s.tables ord e h3
        subst he
        exact ⟨pt, pname, by simp [check, buildExtensionContext, h1, h2, h3]⟩

/-- Witness for C3 at the two-table cycle `bar extends foo`,
`foo extends bar`. -/
theorem cyclic_detection_correct_witness :
    (collectTables [] schCyc.tables = .ok () ∧
     checkExtension schCyc.tables schCyc.tables = .ok () ∧
     rooted schCyc.tables schCyc.tables.length (schCyc.tables.get ⟨0, by decide⟩)
       = false) ∧
    ∃ pt pname, check schCyc.tables schCyc = some (.error (cyclicDiag pt pname)) :=
  ⟨⟨by rfl, by rfl, by decide⟩,
   (cyclic_detection_correct schCyc.tables schCyc (List.Perm.refl _)).2
     (by rfl) (by rfl) ⟨schCyc.tables.get ⟨0, by decide⟩, by decide, by decide⟩⟩

/-! ## C9: check terminates on every parsed schema -/

/-- C9: for every schema and every table-map iteration order, `check`
runs to completion: it returns `some` result — either `Ok` or a
diagnostic list — with the standard fuel bounds, never exhausting fuel
and never hitting a failed `unwrap`/`expect`; cycle detection runs
before flattening, so the flattening walk only ever follows rooted
parent chains. -/
theorem check_terminates (ord : List TableDef) (s : Schema)
    (hperm : ord.Perm s.tables) : ∃ r, check ord s = some r := by
  cases h1 : collectTables [] s.tables with
  | error e => exact ⟨.error e, by simp [check, buildExtensionContext, h1]⟩
  | ok u =>
    cases u
    have hnodup := collectTables_nodup h1
    cases h2 : checkExtension s.tables ord with
    | error e => exact ⟨.error e, by simp [check, buildExtensionContext, h1, h2]⟩
    | ok u =>
      cases u
      have hpar := checkExtension_parents hperm h2
      have hcycS := checkCyclicExtension_isSome s.tables ord hpar hperm
      cases h3 : checkCyclicExtension s.tables ord with
      | none => rw [h3] at hcycS; cases hcycS
      | some r3 =>
        cases r3 with
        | error e => exact ⟨.error e, by simp [check, buildExtensionContext, h1, h2, h3]⟩
        | ok u =>
          cases u
          have hroot := checkCyclicExtension_ok_rooted s.tables ord hnodup hperm h3
          obtain ⟨r4, hr4, himpl⟩ := buildCtxGo_spec s.tables hnodup hpar hroot ord []
            (fun t ht => hperm.mem_iff.mp ht) (by intro p hp; cases hp)
          cases r4 with
          | error e =>
            exact ⟨.error e, by simp [check, buildExtensionContext, h1, h2, h3, hr4]⟩
          | ok ctx =>
            obtain ⟨_, hkeys⟩ := himpl ctx rfl
            have hkeys2 : ctxKeys ctx = tableNames ord := by simpa [ctxKeys] using hkeys
            have hidxS := checkIndexes_isSome ctx s.tables (by
              intro t ht
              rw [hkeys2]
              exact List.mem_map_of_mem _ (hperm.mem_iff.mpr ht))
            cases h5 : checkIndexes ctx s.tables with
            | none => rw [h5] at hidxS; cases hidxS
            | some r5 =>
              cases r5 with
              | error e =>
                exact ⟨.error e, by
                  simp [check, checkAgainst, buildExtensionContext, h1, h2, h3, hr4, h5]⟩
              | ok u =>
                cases u
                cases h6 : checkReferences ctx s.tables with
                | error e =>
                  exact ⟨.error e, by
                    simp [check, checkAgainst, buildExtensionContext, h1, h2, h3, hr4, h5, h6]⟩
                | ok u =>
                  cases u
                  exact ⟨.ok (), by
                    simp [check, checkAgainst, buildExtensionContext, h1, h2, h3, hr4, h5, h6]⟩

/-- Witness for C9 at the cyclic schema: even with an inheritance cycle
the call runs to completion and returns a diagnostic. -/
theorem check_terminates_witness :
    (rooted schCyc.tables schCyc.tables.length (schCyc.tables.get ⟨0, by decide⟩)
      = false) ∧
    ∃ r, check schCyc.tables schCyc = some r :=
  ⟨by decide, check_terminates schCyc.tables schCyc (List.Perm.refl _)⟩

/-! ## C7: reference validation -/

theorem colNames_any_iff (cols : List ColumnDef) (n : String) :
    (cols.any (fun c => c.id.name == n)) = true ↔
      n ∈ cols.map (fun c => c.id.name) := by
  rw [List.any_eq_true]
  constructor
  · rintro ⟨c, hc, he⟩
    have : c.id.name = n := by simpa using he
    rw [← this]
    exact List.mem_map_of_mem _ hc
  · intro h
    rcases List.mem_map.mp h with ⟨c, hc, he⟩
    exact ⟨c, hc, by simpa using he⟩

theorem checkRefCols_cons_some (ctx : Ctx) (c : ColumnDef) (rest : List ColumnDef)
    {r : ReferenceDef} (href : c.reference = some r) :
    checkRefCols ctx (c :: rest) =
      (match lookupCtx ctx r.table.name with
       | none => Except.error (refTableDiag r)
       | some cols =>
         if (cols.any fun c2 => c2.id.name == r.column.name) = true then
           checkRefCols ctx rest
         else Except.error (refColumnDiag r)) := by
  rw [checkRefCols, href]

theorem checkRefCols_cons_found (ctx : Ctx) (c : ColumnDef) (rest : List ColumnDef)
    {r : ReferenceDef} {rcols : List ColumnDef}
    (href : c.reference = some r)
    (hl : lookupCtx ctx r.table.name = some rcols) :
    checkRefCols ctx (c :: rest) =
      (if (rcols.any fun c2 => c2.id.name == r.column.name) = true then
         checkRefCols ctx rest
       else Except.error (refColumnDiag r)) := by
  rw [checkRefCols_cons_some ctx c rest href, hl]

theorem checkRefCols_ok_iff (ctx : Ctx) :
    ∀ cols : List ColumnDef,
      checkRefCols ctx cols = .ok () ↔
      ∀ c ∈ cols, ∀ r, c.reference = some r →
        ∃ rcols, lookupCtx ctx r.table.name = some rcols ∧
          r.column.name ∈ rcols.map (fun c => c.id.name)
  | [] => by
    constructor
    · intro _ c hc; cases hc
    · intro _; rfl
  | c :: rest => by
    cases href : c.reference with
    | none =>
      have hred : checkRefCols ctx (c :: rest) = checkRefCols ctx rest := by
        rw [checkRefCols, href]
      rw [hred, checkRefCols_ok_iff ctx rest]
      constructor
      · intro h c2 hc2 r hr
        rcases List.mem_cons.mp hc2 with he | hm
        · subst he; rw [href] at hr; cases hr
        · exact h c2 hm r hr
      · intro h c2 hm r hr
        exact h c2 (List.mem_cons_of_mem _ hm) r hr
    | some r =>
      cases hl : lookupCtx ctx r.table.name with
      | none =>
        have hred : checkRefCols ctx (c :: rest) = .error (refTableDiag r) := by
          rw [checkRefCols_cons_some ctx c rest href, hl]
        rw [hred]
        constructor
        · intro h; cases h
        · intro h
          obtain ⟨rcols, hrc, _⟩ := h c (List.mem_cons_self _ _) r href
          rw [hl] at hrc
          cases hrc
      | some rcols =>
        by_cases hmem : r.column.name ∈ rcols.map (fun c => c.id.name)
        · have hred : checkRefCols ctx (c :: rest) = checkRefCols ctx rest := by
            rw [checkRefCols_cons_found ctx c rest href hl,
              if_pos ((colNames_any_iff rcols r.column.name).mpr hmem)]
          rw [hred, checkRefCols_ok_iff ctx rest]
          constructor
          · intro h c2 hc2 r2 hr2
            rcases List.mem_cons.mp hc2 with he | hm
            · subst he
              rw [href] at hr2
              cases hr2
              exact ⟨rcols, hl, hmem⟩
            · exact h c2 hm r2 hr2
          · intro h c2 hm r2 hr2
            exact h c2 (List.mem_cons_of_mem _ hm) r2 hr2
        · have hred : checkRefCols ctx (c :: rest) = .error (refColumnDiag r) := by
            rw [checkRefCols_cons_found ctx c rest href hl,
              if_neg (fun hc => hmem ((colNames_any_iff rcols r.column.name).mp hc))]
          rw [hred]
          constructor
          · intro h; cases h
          · intro h
            obtain ⟨rcols2, hrc, hmem2⟩ := h c (List.mem_cons_self _ _) r href
            rw [hl] at hrc
            cases hrc
            exact absurd hmem2 hmem

theorem checkRefCols_err (ctx : Ctx) :
    ∀ (cols : List ColumnDef) (e : Diags), checkRefCols ctx cols = .error e →
      ∃ c ∈ cols, ∃ r, c.reference = some r ∧
        ((lookupCtx ctx r.table.name = none ∧ e = refTableDiag r) ∨
         (∃ rcols, lookupCtx ctx r.table.name = some rcols ∧
           r.column.name ∉ rcols.map (fun c => c.id.name) ∧ e = refColumnDiag r))
  | [], e, h => by cases h
  | c :: rest, e, h => by
    cases href : c.reference with
    | none =>
      have hred : checkRefCols ctx (c :: rest) = checkRefCols ctx rest := by
        rw [checkRefCols, href]
      rw [hred] at h
      obtain ⟨c2, hm, hrest⟩ := checkRefCols_err ctx rest e h
      exact ⟨c2, List.mem_cons_of_mem _ hm, hrest⟩
    | some r =>
      cases hl : lookupCtx ctx r.table.name with
      | none =>
        have hred : checkRefCols ctx (c :: rest) = .error (refTableDiag r) := by
          rw [checkRefCols_cons_some ctx c rest href, hl]
        rw [hred] at h
        have he : e = refTableDiag r := ((Except.error.injEq _ _).mp h).symm
        exact ⟨c, List.mem_cons_self _ _, r, href, Or.inl ⟨hl, he⟩⟩
      | some rcols =>
        by_cases hmem : r.column.name ∈ rcols.map (fun c => c.id.name)
        · have hred : checkRefCols ctx (c :: rest) = checkRefCols ctx rest := by
            rw [checkRefCols_cons_found ctx c rest href hl,
              if_pos ((colNames_any_iff rcols r.column.name).mpr hmem)]
          rw [hred] at h
          obtain ⟨c2, hm, hrest⟩ := checkRefCols_err ctx rest e h
          exact ⟨c2, List.mem_cons_of_mem _ hm, hrest⟩
        · have hred : checkRefCols ctx (c :: rest) = .error (refColumnDiag r) := by
            rw [checkRefCols_cons_found ctx c rest href hl,
              if_neg (fun hc => hmem ((colNames_any_iff rcols r.column.name).mp hc))]
          rw [hred] at h
          have he : e = refColumnDiag r := ((Except.error.injEq _ _).mp h).symm
          exact ⟨c, List.mem_cons_self _ _, r, href, Or.inr ⟨rcols, hl, hmem, he⟩⟩

theorem checkReferences_ok_iff (ctx : Ctx) :
    ∀ tables : List TableDef,
      checkReferences ctx tables = .ok () ↔
      ∀ t ∈ tables, ∀ c ∈ t.columns, ∀ r, c.reference = some r →
        ∃ rcols, lookupCtx ctx r.table.name = some rcols ∧
          r.column.name ∈ rcols.map (fun c => c.id.name)
  | [] => by
    constructor
    · intro _ t ht; cases ht
    · intro _; rfl
  | t :: rest => by
    cases hc : checkRefCols ctx t.columns with
    | error e =>
      have hred : checkReferences ctx (t :: rest) = .error e := by
        rw [checkReferences, hc]
      rw [hred]
      constructor
      · intro h; cases h
      · intro h
        have := (checkRefCols_ok_iff ctx t.columns).mpr
          (fun c hcm r hr => h t (List.mem_cons_self _ _) c hcm r hr)
        rw [hc] at this
        cases this
    | ok u =>
      cases u
      have hred : checkReferences ctx (t :: rest) = checkReferences ctx rest := by
        rw [checkReferences, hc]
      rw [hred, checkReferences_ok_iff ctx rest]
      constructor
      · intro h t2 ht2 c hcm r hr
        rcases List.mem_cons.mp ht2 with he | hm
        · subst he
          exact (checkRefCols_ok_iff ctx t2.columns).mp hc c hcm r hr
        · exact h t2 hm c hcm r hr
      · intro h t2 hm c hcm r hr
        exact h t2 (List.mem_cons_of_mem _ hm) c hcm r hr

theorem checkReferences_err (ctx : Ctx) :
    ∀ (tables : List TableDef) (e : Diags),
      checkReferences ctx tables = .error e →
      ∃ t ∈ tables, ∃ c ∈ t.columns, ∃ r, c.reference = some r ∧
        ((lookupCtx ctx r.table.name = none ∧ e = refTableDiag r) ∨
         (∃ rcols, lookupCtx ctx r.table.name = some rcols ∧
           r.column.name ∉ rcols.map (fun c => c.id.name) ∧ e = refColumnDiag r))
  | [], e, h => by cases h
  | t :: rest, e, h => by
    cases hc : checkRefCols ctx t.columns with
    | error e2 =>
      have hred : checkReferences ctx (t :: rest) = .error e2 := by
        rw [checkReferences, hc]
      rw [hred] at h
      have he : e = e2 := ((Except.error.injEq _ _).mp h).symm
      subst he
      obtain ⟨c, hcm, hrest⟩ := checkRefCols_err ctx t.columns e hc
      exact ⟨t, List.mem_cons_self _ _, c, hcm, hrest⟩
    | ok u =>
      cases u
      have hred : checkReferences ctx (t :: rest) = checkReferences ctx rest := by
        rw [checkReferences, hc]
      rw [hred] at h
      obtain ⟨t2, hm, hrest⟩ := checkReferences_err ctx rest e h
      exact ⟨t2, List.mem_cons_of_mem _ hm, hrest⟩

/-- C7: for a schema that has reached the reference-validation pass
(the extension context is built and index validation passed), `check`
succeeds exactly when every `ReferenceDef` resolves: its table name is
a key of the flattened context and its column name lies in that table's
effective column set — so a reference to a column the target table only
inherits resolves; and every failure is the diagnostic of a failing
reference: "table ... is not exist in the schema" when the table is
unknown, otherwise "column ... is not existed in the table ..." when
the column is outside the effective set. -/
theorem reference_validation_correct (ord : List TableDef) (s : Schema) (ctx : Ctx)
    (hctx : buildExtensionContext ord s = some (.ok ctx))
    (hidx : checkIndexes ctx s.tables = some (.ok ())) :
    (check ord s = some (.ok ()) ↔
      ∀ t ∈ s.tables, ∀ c ∈ t.columns, ∀ r, c.reference = some r →
        ∃ rcols, lookupCtx ctx r.table.name = some rcols ∧
          r.column.name ∈ rcols.map (fun c => c.id.name)) ∧
    (∀ e, check ord s = some (.error e) →
      ∃ t ∈ s.tables, ∃ c ∈ t.columns, ∃ r, c.reference = some r ∧
        ((lookupCtx ctx r.table.name = none ∧ e = refTableDiag r) ∨
         (∃ rcols, lookupCtx ctx r.table.name = some rcols ∧
           r.column.name ∉ rcols.map (fun c => c.id.name) ∧ e = refColumnDiag r))) := by
  have h0 : check ord s = checkAgainst ctx s.tables := by
    rw [check, hctx]
  have h1 : checkAgainst ctx s.tables =
      (match checkReferences ctx s.tables with
       | Except.error e => some (Except.error e)
       | Except.ok () => some (Except.ok ())) := by
    rw [checkAgainst, hidx]
  constructor
  · rw [h0, h1]
    cases hr : checkReferences ctx s.tables with
    | error e =>
      constructor
      · intro h; cases h
      · intro h
        have := (checkReferences_ok_iff ctx s.tables).mpr h
        rw [hr] at this
        cases this
    | ok u =>
      cases u
      constructor
      · intro _
        exact (checkReferences_ok_iff ctx s.tables).mp hr
      · intro _; rfl
  · intro e he
    rw [h0, h1] at he
    cases hr : checkReferences ctx s.tables with
    | error e2 =>
      rw [hr] at he
      have : e2 = e := by
        have h2 : some (Except.error e2) = some (Except.error e) := he
        simpa using h2
      subst this
      exact checkReferences_err ctx s.tables e2 hr
    | ok u =>
      cases u
      rw [hr] at he
      cases he

set_option maxRecDepth 8000 in
/-- Witness for C7: a reference to `foo.id` where table `foo` only
inherits `id` from `common` resolves, and check succeeds. -/
theorem reference_validation_correct_witness :
    (buildExtensionContext schRef.tables schRef = some (.ok ctxRef) ∧
     checkIndexes ctxRef schRef.tables = some (.ok ()) ∧
     check schRef.tables schRef = some (.ok ())) ∧
    (∀ t ∈ schRef.tables, ∀ c ∈ t.columns, ∀ r, c.reference = some r →
      ∃ rcols, lookupCtx ctxRef r.table.name = some rcols ∧
        r.column.name ∈ rcols.map (fun c => c.id.name)) :=
  ⟨⟨rfl, rfl, rfl⟩,
   (reference_validation_correct schRef.tables schRef ctxRef rfl rfl).1.mp rfl⟩

/-! ## C8: the tokenizer is total -/

theorem lexStep_k_ge_one (c : Char) (rest : List Char) : 1 ≤ (lexStep c rest).2 := by
  unfold lexStep
  cases rest <;> repeat' split
  all_goals simp_all

theorem lexStep_k_le (c : Char) (rest : List Char) :
    (lexStep c rest).2 ≤ (c :: rest).length := by
  unfold lexStep
  cases rest <;> repeat' split
  all_goals simp_all [List.length_cons]

theorem lexStep_ne_ws (c : Char) (rest : List Char) :
    (lexStep c rest).1 ≠ Token.whitespace := by
  unfold lexStep
  cases rest <;> repeat' split
  all_goals simp_all

theorem keywordOf_ne_ws (s : String) : keywordOf s ≠ Token.whitespace := by
  rw [keywordOf]
  repeat' split
  all_goals simp

/-- The lexer with sufficient fuel: it never emits a whitespace token,
every span is nonempty and inside the input, and every position of the
input is either whitespace or inside the span of some emitted token —
in particular unmatched characters sit inside error-token spans. -/
theorem lexAux_spec :
    ∀ (fuel pos : Nat) (cs : List Char), cs.length ≤ fuel →
      (∀ p ∈ lexAux fuel pos cs, p.1 ≠ Token.whitespace) ∧
      (∀ p ∈ lexAux fuel pos cs,
        pos ≤ p.2.1 ∧ p.2.1 < p.2.2 ∧ p.2.2 ≤ pos + cs.length) ∧
      (∀ i, (h : i < cs.length) → isWsChar (cs.get ⟨i, h⟩) = true ∨
        ∃ p ∈ lexAux fuel pos cs, p.2.1 ≤ pos + i ∧ pos + i < p.2.2) := by
  intro fuel
  induction fuel with
  | zero =>
    intro pos cs hf
    have : cs = [] := List.length_eq_zero.mp (by omega)
    subst this
    refine ⟨?_, ?_, ?_⟩
    · intro p hp; cases hp
    · intro p hp; cases hp
    · intro i h; simp at h
  | succ fuel ih =>
    intro pos cs hf
    cases cs with
    | nil =>
      refine ⟨?_, ?_, ?_⟩
      · intro p hp; cases hp
      · intro p hp; cases hp
      · intro i h; simp at h
    | cons c rest =>
      by_cases hws : isWsChar c = true
      · -- whitespace run: skipped, no token
        have hrun : (c :: rest).takeWhile isWsChar = c :: rest.takeWhile isWsChar :=
          List.takeWhile_cons_of_pos hws
        have hred : lexAux (fuel + 1) pos (c :: rest) =
            lexAux fuel (pos + ((c :: rest).takeWhile isWsChar).length)
              ((c :: rest).dropWhile isWsChar) := by
          rw [lexAux, if_pos hws]
        have happ := List.takeWhile_append_dropWhile (p := isWsChar) (l := c :: rest)
        have hlen : ((c :: rest).takeWhile isWsChar).length +
            ((c :: rest).dropWhile isWsChar).length = (c :: rest).length := by
          rw [← List.length_append, happ]
        have hrunlen : 1 ≤ ((c :: rest).takeWhile isWsChar).length := by
          rw [hrun]
          simp
        have hfuel2 : ((c :: rest).dropWhile isWsChar).length ≤ fuel := by
          simp only [List.length_cons] at hf hlen
          omega
        obtain ⟨ih1, ih2, ih3⟩ := ih (pos + ((c :: rest).takeWhile isWsChar).length)
          ((c :: rest).dropWhile isWsChar) hfuel2
        rw [hred]
        refine ⟨ih1, ?_, ?_⟩
        · intro p hp
          obtain ⟨ha, hb, hc⟩ := ih2 p hp
          refine ⟨by omega, hb, by omega⟩
        · intro i h
          by_cases hi : i < ((c :: rest).takeWhile isWsChar).length
          · left
            have hget : (c :: rest).get ⟨i, h⟩ =
                ((c :: rest).takeWhile isWsChar).get ⟨i, hi⟩ := by
              simp only [List.get_eq_getElem]
              rw [List.getElem_of_eq happ.symm h, List.getElem_append_left hi]
            rw [hget]
            exact List.mem_takeWhile_imp (List.get_mem _ _ _)
          · have hi2 : i - ((c :: rest).takeWhile isWsChar).length <
                ((c :: rest).dropWhile isWsChar).length := by
              simp only [List.length_cons] at h hlen ⊢
              omega
            have hget : (c :: rest).get ⟨i, h⟩ =
                ((c :: rest).dropWhile isWsChar).get ⟨_, hi2⟩ := by
              simp only [List.get_eq_getElem]
              rw [List.getElem_of_eq happ.symm h, List.getElem_append_right (by omega)]
            rcases ih3 (i - ((c :: rest).takeWhile isWsChar).length) hi2 with hw | ⟨p, hp, hq⟩
            · left
              rw [hget]
              exact hw
            · right
              exact ⟨p, hp, by omega, by omega⟩
      · by_cases hal : isAlphaChar c = true
        · -- identifier run: one keyword-or-identifier token
          have hident : isIdentChar c = true := by
            rw [isIdentChar, hal]
            rfl
          have hrun : (c :: rest).takeWhile isIdentChar =
              c :: rest.takeWhile isIdentChar :=
            List.takeWhile_cons_of_pos hident
          have hred : lexAux (fuel + 1) pos (c :: rest) =
              (keywordOf (String.mk ((c :: rest).takeWhile isIdentChar)),
                (pos, pos + ((c :: rest).takeWhile isIdentChar).length)) ::
              lexAux fuel (pos + ((c :: rest).takeWhile isIdentChar).length)
                ((c :: rest).dropWhile isIdentChar) := by
            rw [lexAux, if_neg hws, if_pos hal]
          have happ := List.takeWhile_append_dropWhile (p := isIdentChar) (l := c :: rest)
          have hlen : ((c :: rest).takeWhile isIdentChar).length +
              ((c :: rest).dropWhile isIdentChar).length = (c :: rest).length := by
            rw [← List.length_append, happ]
          have hrunlen : 1 ≤ ((c :: rest).takeWhile isIdentChar).length := by
            rw [hrun]
            simp
          have hfuel2 : ((c :: rest).dropWhile isIdentChar).length ≤ fuel := by
            simp only [List.length_cons] at hf hlen
            omega
          obtain ⟨ih1, ih2, ih3⟩ := ih (pos + ((c :: rest).takeWhile isIdentChar).length)
            ((c :: rest).dropWhile isIdentChar) hfuel2
          rw [hred]
          refine ⟨?_, ?_, ?_⟩
          · intro p hp
            rcases List.mem_cons.mp hp with he | hm
            · rw [he]
              exact keywordOf_ne_ws _
            · exact ih1 p hm
          · intro p hp
            rcases List.mem_cons.mp hp with he | hm
            · rw [he]
              simp only [List.length_cons] at hlen ⊢
              refine ⟨le_refl _, by omega, by omega⟩
            · obtain ⟨ha, hb, hc⟩ := ih2 p hm
              simp only [List.length_cons] at hlen ⊢
              refine ⟨by omega, hb, by omega⟩
          · intro i h
            by_cases hi : i < ((c :: rest).takeWhile isIdentChar).length
            · right
              refine ⟨(keywordOf (String.mk ((c :: rest).takeWhile isIdentChar)),
                (pos, pos + ((c :: rest).takeWhile isIdentChar).length)),
                List.mem_cons_self _ _, ?_, ?_⟩
              · show pos ≤ pos + i
                omega
              · show pos + i < pos + ((c :: rest).takeWhile isIdentChar).length
                omega
            · have hi2 : i - ((c :: rest).takeWhile isIdentChar).length <
                  ((c :: rest).dropWhile isIdentChar).length := by
                simp only [List.length_cons] at h hlen ⊢
                omega
              have hget : (c :: rest).get ⟨i, h⟩ =
                  ((c :: rest).dropWhile isIdentChar).get ⟨_, hi2⟩ := by
                simp only [List.get_eq_getElem]
                rw [List.getElem_of_eq happ.symm h, List.getElem_append_right (by omega)]
              rcases ih3 (i - ((c :: rest).takeWhile isIdentChar).length) hi2 with
                hw | ⟨p, hp, hq⟩
              · left
                rw [hget]
                exact hw
              · right
                exact ⟨p, List.mem_cons_of_mem _ hp, by omega, by omega⟩
        · -- punctuation, operator or error token
          have hred : lexAux (fuel + 1) pos (c :: rest) =
              ((lexStep c rest).1, (pos, pos + (lexStep c rest).2)) ::
              lexAux fuel (pos + (lexStep c rest).2)
                ((c :: rest).drop (lexStep c rest).2) := by
            rw [lexAux, if_neg hws, if_neg hal]
          have hk1 := lexStep_k_ge_one c rest
          have hk2 := lexStep_k_le c rest
          have hdroplen : ((c :: rest).drop (lexStep c rest).2).length =
              (c :: rest).length - (lexStep c rest).2 := by
            simp
          have hfuel2 : ((c :: rest).drop (lexStep c rest).2).length ≤ fuel := by
            rw [hdroplen]
            simp only [List.length_cons] at hf ⊢
            omega
          obtain ⟨ih1, ih2, ih3⟩ := ih (pos + (lexStep c rest).2)
            ((c :: rest).drop (lexStep c rest).2) hfuel2
          rw [hred]
          refine ⟨?_, ?_, ?_⟩
          · intro p hp
            rcases List.mem_cons.mp hp with he | hm
            · rw [he]
              exact lexStep_ne_ws c rest
            · exact ih1 p hm
          · intro p hp
            rcases List.mem_cons.mp hp with he | hm
            · rw [he]
              refine ⟨?_, ?_, ?_⟩
              · show pos ≤ pos
                exact le_refl _
              · show pos < pos + (lexStep c rest).2
                omega
              · show pos + (lexStep c rest).2 ≤ pos + (c :: rest).length
                omega
            · obtain ⟨ha, hb, hc⟩ := ih2 p hm
              rw [hdroplen] at hc
              refine ⟨by omega, hb, by omega⟩
          · intro i h
            by_cases hi : i < (lexStep c rest).2
            · right
              refine ⟨((lexStep c rest).1, (pos, pos + (lexStep c rest).2)),
                List.mem_cons_self _ _, ?_, ?_⟩
              · show pos ≤ pos + i
                omega
              · show pos + i < pos + (lexStep c rest).2
                omega
            · have hi2 : i - (lexStep c rest).2 <
                  ((c :: rest).drop (lexStep c rest).2).length := by
                rw [hdroplen]
                omega
              have hget : (c :: rest).get ⟨i, h⟩ =
                  ((c :: rest).drop (lexStep c rest).2).get ⟨_, hi2⟩ := by
                simp only [List.get_eq_getElem, List.getElem_drop]
                congr 1
                omega
              rcases ih3 (i - (lexStep c rest).2) hi2 with hw | ⟨p, hp, hq⟩
              · left
                rw [hget]
                exact hw
              · right
                exact ⟨p, List.mem_cons_of_mem _ hp, by omega, by omega⟩

/-- C8: `tokenize` is total: for every input string lexing runs to the
end of the input; whitespace is discarded and never emitted as a token;
every emitted span is nonempty and lies inside the input; and every
non-whitespace input position — unmatched characters included — lies
inside the span of some emitted token (unmatched input is emitted as an
error token carrying its own span). -/
theorem tokenize_total (src : String) :
    (∀ p ∈ lex src, p.1 ≠ Token.whitespace) ∧
    (∀ p ∈ lex src, p.2.1 < p.2.2 ∧ p.2.2 ≤ src.data.length) ∧
    (∀ i, (h : i < src.data.length) →
      isWsChar (src.data.get ⟨i, h⟩) = true ∨
      ∃ p ∈ lex src, p.2.1 ≤ i ∧ i < p.2.2) := by
  obtain ⟨h1, h2, h3⟩ := lexAux_spec (src.data.length + 1) 0 src.data (by omega)
  refine ⟨h1, ?_, ?_⟩
  · intro p hp
    obtain ⟨_, hb, hc⟩ := h2 p hp
    exact ⟨hb, by simpa using hc⟩
  · intro i h
    rcases h3 i h with hw | ⟨p, hp, ha, hb⟩
    · exact Or.inl hw
    · exact Or.inr ⟨p, hp, by simpa using ha, by simpa using hb⟩

/-- Witness for C8: the error tokens appear for the unmatched
characters and the totality statement holds at this input. -/
theorem tokenize_total_witness :
    ((lex srcLex).map Prod.fst).contains Token.errTok = true ∧
    ((∀ p ∈ lex srcLex, p.1 ≠ Token.whitespace) ∧
     (∀ p ∈ lex srcLex, p.2.1 < p.2.2 ∧ p.2.2 ≤ srcLex.data.length) ∧
     (∀ i, (h : i < srcLex.data.length) →
       isWsChar (srcLex.data.get ⟨i, h⟩) = true ∨
       ∃ p ∈ lex srcLex, p.2.1 ≤ i ∧ i < p.2.2)) :=
  ⟨by decide, tokenize_total srcLex⟩

end Mecha
